import Mathlib

/-!
Graph-Client-Server: the shortest-path server

A shallow embedding of `src/server/server.cpp` (class `Graph`, the thread
function `shortest_distance`) and of the message built by
`src/client/client.cpp`, followed by theorems about them.

Modelling conventions
* `int` is `Int`; no arithmetic is performed on vertices, the 32-bit range only
  matters in `stoi`, which checks it explicitly.
* `std::string` is a list of characters (`Str`).
* `std::map<K,V>` is an association list with unique keys (`StdMap`); the
  iteration order of the maps is never observed by the program.
* `std::queue<T>` is a list, front first; `push` appends at the end.
* `while` loops take a fuel argument and return `none` when the fuel is gone;
  `Graph.bfs` supplies a fuel computed from the graph, and the theorems show it
  is never exhausted.
-/

namespace GraphServer

/-- A `std::string`, as the list of its characters. -/
abbrev Str := List Char

/-! ## `std::map` -/

/-- A `std::map<K,V>`: association list, one entry per key. -/
abbrev StdMap (K V : Type) := List (K × V)

namespace StdMap

variable {K V : Type} [DecidableEq K]

/-- The entry found by `m.find(k)`, or `none` for `m.end()`. -/
def find : StdMap K V → K → Option V
  | [], _ => none
  | (k', v) :: t, k => if k' = k then some v else find t k

/-- The assignment `m[k] = v`: overwrites the entry of `k` or adds one. -/
def insert : StdMap K V → K → V → StdMap K V
  | [], k, v => [(k, v)]
  | (k', v') :: t, k, v => if k' = k then (k, v) :: t else (k', v') :: insert t k v

/-- The call `m.erase(k)`. -/
def erase : StdMap K V → K → StdMap K V
  | [], _ => []
  | (k', v') :: t, k => if k' = k then erase t k else (k', v') :: erase t k

/-- The call `m.size()`. -/
def size (m : StdMap K V) : Nat := m.length

/-- The keys of the map. -/
def keys (m : StdMap K V) : List K := m.map Prod.fst

/-- The value read by `m[k]` when a missing key is value-initialised to `d`. -/
def getD (m : StdMap K V) (k : K) (d : V) : V := (find m k).getD d

/-- The map after the read `m[k]`: a missing key is added with the value `d`. -/
def touch (m : StdMap K V) (k : K) (d : V) : StdMap K V :=
  match find m k with
  | some _ => m
  | none => insert m k d

end StdMap

/-! ## `std::to_string(int)` and `std::stoi` -/

/-- Decimal rendering of an `int`, as `std::to_string` gives it. -/
def to_string : Int → Str
  | Int.ofNat n => Nat.toDigits 10 n
  | Int.negSucc n => '-' :: Nat.toDigits 10 (n + 1)

/-- The C-locale `isspace`. -/
def isspace (c : Char) : Bool :=
  c = ' ' || c = '\t' || c = '\n' || c = '\x0b' || c = '\x0c' || c = '\r'

/-- The value of a run of decimal digits, most significant first. -/
def digitsValue (ds : List Char) : Nat :=
  ds.foldl (fun acc c => 10 * acc + (c.toNat - 48)) 0

/-- The call `std::stoi(s)`: skips leading white space, reads an optional sign and the
longest run of decimal digits. `none` stands for the exception thrown when there
is no digit (`invalid_argument`) or the value does not fit an `int`
(`out_of_range`). -/
def stoi (s : Str) : Option Int :=
  let s1 := s.dropWhile isspace
  let neg : Bool := s1.head? = some '-'
  let s2 := if s1.head? = some '-' ∨ s1.head? = some '+' then s1.tail else s1
  let ds := s2.takeWhile Char.isDigit
  if ds = [] then none
  else
    let v : Int := if neg then -(digitsValue ds : Int) else (digitsValue ds : Int)
    if -2147483648 ≤ v ∧ v ≤ 2147483647 then some v else none

/-! ## class `Graph` -/

/-- The member `vertex` of `Graph`: the adjacency lists. -/
abbrev Graph := StdMap Int (List Int)

/-- The statement `vertex[u].push_back(v)`. -/
def pushBack (g : Graph) (u v : Int) : Graph :=
  StdMap.insert g u (StdMap.getD g u [] ++ [v])

/-- The loop of `Graph::setGraphPath` over the pairs read from the file, starting
from the adjacency lists `g`. -/
def setGraphPathFrom (g : Graph) : List (Int × Int) → Graph
  | [] => g
  | (u, v) :: rest => setGraphPathFrom (pushBack (pushBack g u v) v u) rest

/-- The graph held by a freshly constructed `Graph` after `setGraphPath` has read
the pairs `edges`. -/
def setGraphPath (edges : List (Int × Int)) : Graph := setGraphPathFrom [] edges

/-- The method `Graph::neighbors`. -/
def neighbors (g : Graph) (u : Int) : List Int :=
  match StdMap.find g u with
  | some l => l
  | none => []

/-- The sentinel answer of `Graph::bfs`. -/
def noPath : Str := "No path between the vertex.".toList

/-- The local variables `q`, `visited_vertex`, `vertex_parents` of `Graph::bfs`. -/
structure BfsState where
  q : List Int
  visited_vertex : StdMap Int Bool
  vertex_parents : StdMap Int Int
deriving DecidableEq

/-- One iteration of the body of `for (int neighbor : neighbors(current))`. -/
def visitNeighbor (current : Int) (st : BfsState) (neighbor : Int) : BfsState :=
  let seen := StdMap.getD st.visited_vertex neighbor false
  let visited1 := StdMap.touch st.visited_vertex neighbor false
  if !seen then
    { q := st.q ++ [neighbor]
      visited_vertex := StdMap.insert visited1 neighbor true
      vertex_parents := StdMap.insert st.vertex_parents neighbor current }
  else
    { st with visited_vertex := visited1 }

/-- The whole loop `for (int neighbor : neighbors(current))`. -/
def visitNeighbors (current : Int) (st : BfsState) (nbrs : List Int) : BfsState :=
  nbrs.foldl (visitNeighbor current) st

/-- The loop `while (vertex_parents.find(v) != vertex_parents.end())` that rebuilds
the path, with `v` and `path` its variables. -/
def pathLoop (vertex_parents : StdMap Int Int) : Nat → Int → Str → Option Str
  | 0, _, _ => none
  | fuel + 1, v, path =>
    match StdMap.find vertex_parents v with
    | none => some path
    | some p => pathLoop vertex_parents fuel p (to_string p ++ ' ' :: path)

/-- The loop `while (!q.empty())` of `Graph::bfs`. -/
def bfsLoop (g : Graph) (dest : Int) : Nat → BfsState → Option Str
  | 0, _ => none
  | fuel + 1, st =>
    match st.q with
    | [] => some noPath
    | current :: rest =>
      if current = dest then
        pathLoop st.vertex_parents (StdMap.size st.vertex_parents + 1) dest (to_string dest)
      else
        bfsLoop g dest fuel
          (visitNeighbors current { st with q := rest } (neighbors g current))

/-- The state of `Graph::bfs` on entering its main loop. -/
def bfsInit (source : Int) : BfsState :=
  { q := [source], visited_vertex := StdMap.insert [] source true, vertex_parents := [] }

/-- All entries of all adjacency lists. -/
def allNeighbors (g : Graph) : List Int := g.flatMap Prod.snd

/-- A number of iterations the main loop of `Graph::bfs` never exceeds. -/
def bfsFuel (g : Graph) : Nat := (allNeighbors g).length + 2

/-- The method `Graph::bfs`; `none` only if a loop did not end within its fuel. -/
def bfs (g : Graph) (source dest : Int) : Option Str :=
  bfsLoop g dest (bfsFuel g) (bfsInit source)

/-! ## the request handler `shortest_distance` -/

/-- The globals `last_requests` and `order_of_last_request`. -/
structure Cache where
  last_requests : StdMap Str Str
  order_of_last_request : List Str
deriving DecidableEq

/-- The cache at server start. -/
def Cache.empty : Cache := { last_requests := [], order_of_last_request := [] }

/-- Ways in which the handler does not complete normally. -/
inductive Fault where
  | stoiThrows
  | frontOfEmptyQueue
  | bfsOutOfFuel
deriving DecidableEq

/-- The call `line.find(' ')`: position of the first space, `none` for `npos`. -/
def findSpace (line : Str) : Option Nat :=
  if ' ' ∈ line then some (line.indexOf ' ') else none

/-- The two `stoi` calls of the handler on `line.substr(0, pos)` and
`line.substr(pos + 1)`; with `pos = npos` both substrings are the whole line. -/
def parseQuery (line : Str) : Option (Int × Int) :=
  let first := match findSpace line with
    | some pos => line.take pos
    | none => line
  let second := match findSpace line with
    | some pos => line.drop (pos + 1)
    | none => line
  match stoi first with
  | none => none
  | some v1 =>
    match stoi second with
    | none => none
    | some v2 => some (v1, v2)

/-- The block between `pthread_mutex_lock` and `pthread_mutex_unlock`. -/
def cacheInsert (c : Cache) (line result : Str) : Except Fault Cache :=
  if StdMap.size c.last_requests ≥ 10 then
    match c.order_of_last_request with
    | [] => Except.error Fault.frontOfEmptyQueue
    | oldest_request :: rest =>
      Except.ok
        { last_requests := StdMap.insert (StdMap.erase c.last_requests oldest_request) line result
          order_of_last_request := rest ++ [line] }
  else
    Except.ok
      { last_requests := StdMap.insert c.last_requests line result
        order_of_last_request := c.order_of_last_request ++ [line] }

/-- The thread function `shortest_distance` from the construction of `line` on:
the bytes written to the socket and the cache afterwards. -/
def shortest_distance (g : Graph) (c : Cache) (line : Str) : Except Fault (Str × Cache) :=
  match parseQuery line with
  | none => Except.error Fault.stoiThrows
  | some (v1, v2) =>
    match StdMap.find c.last_requests line with
    | some result => Except.ok (result, c)
    | none =>
      match bfs g v1 v2 with
      | none => Except.error Fault.bfsOutOfFuel
      | some result =>
        match cacheInsert c line result with
        | Except.error e => Except.error e
        | Except.ok c1 => Except.ok (result, c1)

/-- The handler run on the queries `lines`, one after another: the responses in
order and the final cache. -/
def serve (g : Graph) : Cache → List Str → Except Fault (List Str × Cache)
  | c, [] => Except.ok ([], c)
  | c, line :: rest =>
    match shortest_distance g c line with
    | Except.error e => Except.error e
    | Except.ok (r, c1) =>
      match serve g c1 rest with
      | Except.error e => Except.error e
      | Except.ok (rs, c2) => Except.ok (r :: rs, c2)

/-- The locked block run on the pairs `kvs`, one after another. -/
def cacheInserts : Cache → List (Str × Str) → Except Fault Cache
  | c, [] => Except.ok c
  | c, (k, v) :: rest =>
    match cacheInsert c k v with
    | Except.error e => Except.error e
    | Except.ok c1 => cacheInserts c1 rest

/-- The message built by the client: `to_string(vertex1) + " " + to_string(vertex2)`. -/
def message_to_send (vertex1 vertex2 : Int) : Str :=
  to_string vertex1 ++ ' ' :: to_string vertex2

/-! ## Reading responses back -/

/-- A path rendered as `Graph::bfs` does: the vertices in decimal, separated by
single spaces. -/
def renderPath : List Int → Str
  | [] => []
  | [v] => to_string v
  | v :: w :: rest => to_string v ++ ' ' :: renderPath (w :: rest)

/-- The pieces of a string between its space characters. -/
def splitSpaces : Str → List Str
  | [] => [[]]
  | c :: t =>
    if c = ' ' then [] :: splitSpaces t
    else
      match splitSpaces t with
      | [] => [[c]]
      | h :: r => (c :: h) :: r

/-- Reads a non-empty string of decimal digits. -/
def readNat (s : Str) : Option Nat :=
  if s ≠ [] ∧ s.all Char.isDigit = true then some (digitsValue s) else none

/-- Reads a decimal integer: an optional `-` and a non-empty string of digits. -/
def readDecimal : Str → Option Int
  | '-' :: t => (readNat t).map (fun n => -(n : Int))
  | s => (readNat s).map (fun n => (n : Int))

/-- Reads every piece in decimal; `none` if one of them is not a decimal integer. -/
def readAll : List Str → Option (List Int)
  | [] => some []
  | s :: rest =>
    match readDecimal s with
    | none => none
    | some v =>
      match readAll rest with
      | none => none
      | some vs => some (v :: vs)

/-- Decodes a response: splits it at the spaces and reads each piece in decimal. -/
def decodePath (s : Str) : Option (List Int) :=
  readAll (splitSpaces s)

/-! ## Paths of the graph -/

/-- The list `p` is a path of the graph from `src` to `dst`: it starts with `src`,
ends with `dst`, and each vertex is followed by one of its neighbors. -/
def IsPath (g : Graph) (src dst : Int) (p : List Int) : Prop :=
  p.head? = some src ∧ p.getLast? = some dst ∧ p.Chain' (fun a b => b ∈ neighbors g a)

/-- Paths from `s`, built edge by edge: `WalkTo g s W v` says `W` is a path from `s`
to `v`. -/
inductive WalkTo (g : Graph) (s : Int) : List Int → Int → Prop
  | single : WalkTo g s [s] s
  | snoc {W : List Int} {u v : Int} :
      WalkTo g s W u → v ∈ neighbors g u → WalkTo g s (W ++ [v]) v

/-- The vertex `dst` can be reached from `src` along edges. -/
def Reachable (g : Graph) (src dst : Int) : Prop := ∃ p, IsPath g src dst p

/-- Position, in the adjacency list of `s`, of the second vertex of a path from `s`. -/
def rk (g : Graph) (s : Int) (l : List Int) : Nat :=
  (neighbors g s).indexOf (l.getD 1 s)

/-! ## The invariant of the main loop of `Graph::bfs` -/

/-- The visited flags of a state, read as `visited_vertex[v]` reads them. -/
def visOf (st : BfsState) : Int → Bool :=
  fun v => StdMap.getD st.visited_vertex v false

/-- Queue order: shorter recorded path first, and among equally long ones the one
leaving `s` by the earlier neighbor. -/
def keyLe (g : Graph) (s : Int) (P : Int → List Int) (a b : Int) : Prop :=
  (P a).length < (P b).length ∨
    ((P a).length = (P b).length ∧ rk g s (P a) ≤ rk g s (P b))

/-- Number of entries of `U` not yet visited. -/
def unvisited (vis : Int → Bool) (U : List Int) : Nat :=
  (U.filter (fun v => !vis v)).length

/-- The loop invariant. `Q` is the queue with the vertex being expanded still at its
front, `done` the neighbors of that vertex already looked at, and `P v` the path
recorded for `v` by the parent map. -/
structure Inv (g : Graph) (s d : Int) (vis : Int → Bool) (par : StdMap Int Int)
    (Q done : List Int) (P : Int → List Int) : Prop where
  s_vis : vis s = true
  s_P : P s = [s]
  s_par : StdMap.find par s = none
  walk : ∀ v, vis v = true → WalkTo g s (P v) v
  par_spec : ∀ v, vis v = true → v ≠ s →
    ∃ p, StdMap.find par v = some p ∧ vis p = true ∧ v ∈ neighbors g p ∧
      P v = P p ++ [v] ∧ (p ∈ Q → Q.head? = some p ∧ v ∈ done)
  par_keys : ∀ v p, StdMap.find par v = some p → vis v = true
  len_le : ∀ v, vis v = true → (P v).length ≤ StdMap.size par + 1
  q_vis : ∀ w ∈ Q, vis w = true
  q_nodup : Q.Nodup
  q_sorted : Q.Pairwise (keyLe g s P)
  q_span : ∀ a ∈ Q, ∀ b ∈ Q, (P b).length ≤ (P a).length + 1
  done_spec : ∀ c, Q.head? = some c →
    ∀ x ∈ done, vis x = true ∧ (P x).length ≤ (P c).length + 1
  proc_ne : ∀ u, vis u = true → u ∉ Q → u ≠ d
  proc_nb : ∀ u, vis u = true → u ∉ Q →
    ∀ n ∈ neighbors g u, vis n = true ∧ (P n).length ≤ (P u).length + 1
  proc_le : ∀ u, vis u = true → u ∉ Q → ∀ w ∈ Q, keyLe g s P u w
  opt : ∀ v, vis v = true → ∀ W, WalkTo g s W v → (P v).length ≤ W.length
  tie : ∀ v, vis v = true → v ≠ s → ∀ W, WalkTo g s W v →
    W.length = (P v).length → rk g s (P v) ≤ rk g s W

/-- What `Graph::bfs` owes its caller for the query `(s, d)`: the sentinel when no
path exists, and otherwise the rendering of a shortest path that, among the
shortest paths, leaves `s` by the earliest possible neighbor. -/
def BfsPost (g : Graph) (s d : Int) (r : Str) : Prop :=
  (r = noPath ∧ ∀ W, ¬ WalkTo g s W d) ∨
    ∃ p, r = renderPath p ∧ WalkTo g s p d ∧
      (∀ W, WalkTo g s W d → p.length ≤ W.length) ∧
      (d ≠ s → ∀ W, WalkTo g s W d → W.length = p.length → rk g s p ≤ rk g s W)

/-! ## Statements about `Graph::bfs` -/

/-- A path from `src` to `dst` with the fewest vertices, hence the fewest edges. -/
def IsShortest (g : Graph) (src dst : Int) (p : List Int) : Prop :=
  IsPath g src dst p ∧ ∀ W, IsPath g src dst W → p.length ≤ W.length

/-- The tie-break rule read word for word: the second vertex `b` of the answer is,
among the neighbors of `src` lying on a shortest path to `dst`, the one that comes
first in the adjacency list of `src`. -/
def TieBreakLiteral (g : Graph) (src dst : Int) : Prop :=
  ∃ r p b, bfs g src dst = some r ∧ decodePath r = some p ∧ p.get? 1 = some b ∧
    b ∈ neighbors g src ∧
    ∀ a, a ∈ neighbors g src → (∃ W, IsShortest g src dst W ∧ a ∈ W) →
      (neighbors g src).indexOf b ≤ (neighbors g src).indexOf a

/-- The tie-break rule with `src` itself, which a self-loop makes its own neighbor,
left out of the candidates. -/
def TieBreak (g : Graph) (src dst : Int) : Prop :=
  ∃ r p b, bfs g src dst = some r ∧ decodePath r = some p ∧ p.get? 1 = some b ∧
    IsShortest g src dst p ∧ b ∈ neighbors g src ∧ b ≠ src ∧
    ∀ a, a ∈ neighbors g src → a ≠ src → (∃ W, IsShortest g src dst W ∧ a ∈ W) →
      (neighbors g src).indexOf b ≤ (neighbors g src).indexOf a

/-! ## Statements about the cache -/

/-- What `Graph::bfs` answers to the query `q`, computed without any cache. -/
def answer (g : Graph) (q : Str) : Option Str :=
  match parseQuery q with
  | none => none
  | some (v1, v2) => bfs g v1 v2

/-- The last ten entries of a list, or all of them when there are fewer. -/
def lastTen (l : List Str) : List Str := l.drop (l.length - 10)

/-- The invariant of the cache while requests are handled one after another: the
eviction queue lists the keys of `last_requests` once each, there are at most ten,
and each stored response is the answer to its key. -/
structure CacheInv (g : Graph) (c : Cache) : Prop where
  perm : c.order_of_last_request.Perm (StdMap.keys c.last_requests)
  nodup : c.order_of_last_request.Nodup
  cap : StdMap.size c.last_requests ≤ 10
  sound : ∀ k v, StdMap.find c.last_requests k = some v → answer g k = some v

/-- The query `n n` together with its answer `n`, as the locked block receives them. -/
def selfQuery (n : Int) : Str × Str := (message_to_send n n, to_string n)

/-- Thirteen runs of the locked block in which the first key comes twice, as happens
when two handlers miss on the same query at the same time and both insert it. -/
def repeatedKeyInserts : List (Str × Str) :=
  [1, 1, 2, 3, 4, 5, 6, 7, 8, 9, 10, 11, 12].map selfQuery

/-- How many times `k` occurs in the queue `l`. -/
def occurrences (k : Str) (l : List Str) : Nat :=
  (l.filter (fun x => decide (x = k))).length

/-! ## Further statements -/

/-- The values of a 32-bit signed `int`. -/
def IsInt32 (v : Int) : Prop := -2147483648 ≤ v ∧ v ≤ 2147483647

instance (v : Int) : Decidable (IsInt32 v) := by
  unfold IsInt32
  exact instDecidableAnd

/-- The string `line` begins with the decimal integer `n`: an optional minus sign and
digits, written `pre`, followed by something that is not a digit. -/
def BeginsWithDecimal (line : Str) (n : Int) : Prop :=
  ∃ pre rest, line = pre ++ rest ∧ readDecimal pre = some n ∧
    ∀ c, rest.head? = some c → c.isDigit = false

/-- How the main loop of `Graph::bfs` is left: whether `dest` was taken off the queue,
the vertices taken off the queue so far, in order, and the variables at that point. -/
structure BfsExit where
  found : Bool
  popped : List Int
  st : BfsState

/-- The loop `while (!q.empty())` of `Graph::bfs` once more, keeping a record of the
vertices removed by `q.pop()`. Every vertex ever pushed is either in that record or
still in the queue. -/
def bfsTrace (g : Graph) (dest : Int) : Nat → BfsState → List Int → Option BfsExit
  | 0, _, _ => none
  | fuel + 1, st, popped =>
    match st.q with
    | [] => some { found := false, popped := popped, st := st }
    | current :: rest =>
      if current = dest then
        some { found := true, popped := popped ++ [current], st := { st with q := rest } }
      else
        bfsTrace g dest fuel
          (visitNeighbors current { st with q := rest } (neighbors g current))
          (popped ++ [current])

/-- What `Graph::bfs` returns once its main loop is left as `e` says. -/
def bfsFinish (dest : Int) (e : BfsExit) : Option Str :=
  if e.found then
    pathLoop e.st.vertex_parents (StdMap.size e.st.vertex_parents + 1) dest (to_string dest)
  else some noPath

/-! ## Lemmas on `StdMap` -/

namespace StdMap

variable {K V : Type} [DecidableEq K]

theorem find_insert (m : StdMap K V) (k k' : K) (v : V) :
    find (insert m k v) k' = if k = k' then some v else find m k' := by
  induction m with
  | nil => simp [insert, find]
  | cons e t ih =>
    obtain ⟨a, b⟩ := e
    by_cases h : a = k
    · subst h
      by_cases h' : a = k' <;> simp [insert, find, h']
    · by_cases h' : a = k'
      · subst h'
        have : ¬ k = a := fun e => h e.symm
        simp [insert, find, h, this]
      · simp [insert, find, h, h', ih]

theorem find_insert_self (m : StdMap K V) (k : K) (v : V) :
    find (insert m k v) k = some v := by
  simp [find_insert]

theorem find_insert_ne (m : StdMap K V) {k k' : K} (v : V) (h : k ≠ k') :
    find (insert m k v) k' = find m k' := by
  simp [find_insert, h]

theorem find_erase (m : StdMap K V) (k k' : K) :
    find (erase m k) k' = if k = k' then none else find m k' := by
  induction m with
  | nil => simp [erase, find]
  | cons e t ih =>
    obtain ⟨a, b⟩ := e
    by_cases h : a = k
    · subst h
      by_cases h' : a = k'
      · subst h'
        simpa [erase, find] using ih
      · simp [erase, find, h', ih]
    · by_cases h' : a = k'
      · subst h'
        have : ¬ k = a := fun e => h e.symm
        simp [erase, find, h, this]
      · simp [erase, find, h, h', ih]

theorem find_eq_none_iff (m : StdMap K V) (k : K) : find m k = none ↔ k ∉ keys m := by
  induction m with
  | nil => simp [find, keys]
  | cons e t ih =>
    obtain ⟨a, b⟩ := e
    by_cases h : a = k
    · simp [find, keys, h]
    · have h2 : ¬ k = a := fun e => h e.symm
      simpa [find, keys, h, h2] using ih

theorem find_isSome_iff (m : StdMap K V) (k : K) : (find m k).isSome ↔ k ∈ keys m := by
  rw [← not_iff_not, ← find_eq_none_iff]
  cases find m k <;> simp

theorem mem_of_find (m : StdMap K V) (k : K) (v : V) (h : find m k = some v) : (k, v) ∈ m := by
  induction m with
  | nil => simp [find] at h
  | cons e t ih =>
    obtain ⟨a, b⟩ := e
    by_cases h1 : a = k
    · simp [find, h1] at h
      simp [h1, h]
    · simp [find, h1] at h
      exact List.mem_cons_of_mem _ (ih h)

theorem size_insert_of_find_none (m : StdMap K V) (k : K) (v : V) (h : find m k = none) :
    size (insert m k v) = size m + 1 := by
  induction m with
  | nil => simp [insert, size]
  | cons e t ih =>
    obtain ⟨a, b⟩ := e
    by_cases h1 : a = k
    · simp [find, h1] at h
    · simp [find, h1] at h
      have := ih h
      simp [size] at this
      simp [insert, h1, size, this]

theorem size_insert_of_find_some (m : StdMap K V) (k : K) (v w : V) (h : find m k = some w) :
    size (insert m k v) = size m := by
  induction m generalizing w with
  | nil => simp [find] at h
  | cons e t ih =>
    obtain ⟨a, b⟩ := e
    by_cases h1 : a = k
    · simp [insert, h1, size]
    · simp [find, h1] at h
      have := ih w h
      simp [size] at this
      simp [insert, h1, size, this]

theorem size_insert_le (m : StdMap K V) (k : K) (v : V) :
    size (insert m k v) ≤ size m + 1 := by
  cases h : find m k with
  | none => rw [size_insert_of_find_none m k v h]
  | some w => rw [size_insert_of_find_some m k v w h]; omega

theorem keys_insert_of_find_none (m : StdMap K V) (k : K) (v : V) (h : find m k = none) :
    keys (insert m k v) = keys m ++ [k] := by
  induction m with
  | nil => simp [insert, keys]
  | cons e t ih =>
    obtain ⟨a, b⟩ := e
    by_cases h1 : a = k
    · simp [find, h1] at h
    · simp [find, h1] at h
      have := ih h
      simp [keys] at this
      simp [insert, h1, keys, this]

theorem keys_erase (m : StdMap K V) (k : K) :
    keys (erase m k) = (keys m).filter (fun x => decide (x ≠ k)) := by
  induction m with
  | nil => simp [erase, keys]
  | cons e t ih =>
    obtain ⟨a, b⟩ := e
    simp only [keys] at ih
    by_cases h1 : a = k
    · simp [erase, keys, h1, ih]
    · simp [erase, keys, h1, ih]

theorem getD_insert (m : StdMap K V) (k k' : K) (v d : V) :
    getD (insert m k v) k' d = if k = k' then v else getD m k' d := by
  unfold getD
  rw [find_insert]
  split <;> rfl

theorem getD_touch (m : StdMap K V) (k k' : K) (d : V) :
    getD (touch m k d) k' d = getD m k' d := by
  unfold touch
  cases h : find m k with
  | some w => rfl
  | none =>
    simp only [getD_insert]
    split
    · rename_i hk
      subst hk
      simp [getD, h]
    · rfl

end StdMap
/-! ## Decimal rendering -/

theorem digitChar_spec (d : Nat) (h : d < 10) :
    (Nat.digitChar d).isDigit = true ∧ (Nat.digitChar d).toNat - 48 = d := by
  interval_cases d <;> decide

theorem toDigitsCore_spec (fuel : Nat) : ∀ (n : Nat) (ds : List Char), n < fuel →
    ∃ L : List Char, Nat.toDigitsCore 10 fuel n ds = L ++ ds ∧ L ≠ [] ∧
      (∀ c ∈ L, c.isDigit = true) ∧ digitsValue L = n := by
  induction fuel with
  | zero => intro n ds h; omega
  | succ fuel ih =>
    intro n ds h
    have hd := digitChar_spec (n % 10) (Nat.mod_lt _ (by decide))
    unfold Nat.toDigitsCore
    by_cases h0 : n / 10 = 0
    · refine ⟨[Nat.digitChar (n % 10)], ?_, by simp, ?_, ?_⟩
      · simp [h0]
      · intro c hc
        simp at hc
        rw [hc]; exact hd.1
      · simp [digitsValue, hd.2]
        omega
    · obtain ⟨L, hL, hne, hdig, hval⟩ := ih (n / 10) (Nat.digitChar (n % 10) :: ds) (by omega)
      refine ⟨L ++ [Nat.digitChar (n % 10)], ?_, by simp, ?_, ?_⟩
      · simp [h0, hL]
      · intro c hc
        rcases List.mem_append.1 hc with hc | hc
        · exact hdig c hc
        · simp at hc
          rw [hc]; exact hd.1
      · unfold digitsValue at hval ⊢
        rw [List.foldl_append]
        simp [hval, hd.2]
        omega

theorem toDigits_spec (n : Nat) :
    Nat.toDigits 10 n ≠ [] ∧ (∀ c ∈ Nat.toDigits 10 n, c.isDigit = true) ∧
      digitsValue (Nat.toDigits 10 n) = n := by
  obtain ⟨L, hL, hne, hdig, hval⟩ := toDigitsCore_spec (n + 1) n [] (by omega)
  have : Nat.toDigits 10 n = L := by simpa [Nat.toDigits] using hL
  rw [this]
  exact ⟨hne, hdig, hval⟩

theorem isDigit_ne_space (c : Char) (h : c.isDigit = true) : c ≠ ' ' := by
  intro e; subst e; exact absurd h (by decide)

theorem isDigit_ne_minus (c : Char) (h : c.isDigit = true) : c ≠ '-' := by
  intro e; subst e; exact absurd h (by decide)

theorem readNat_toDigits (n : Nat) : readNat (Nat.toDigits 10 n) = some n := by
  obtain ⟨hne, hdig, hval⟩ := toDigits_spec n
  unfold readNat
  rw [if_pos ⟨hne, List.all_eq_true.2 hdig⟩, hval]

theorem readDecimal_to_string (v : Int) : readDecimal (to_string v) = some v := by
  cases v with
  | ofNat n =>
    obtain ⟨hne, hdig, _⟩ := toDigits_spec n
    have hr := readNat_toDigits n
    simp only [to_string]
    cases hL : Nat.toDigits 10 n with
    | nil => exact absurd hL hne
    | cons c t =>
      have hc : c ≠ '-' := isDigit_ne_minus c (hdig c (by simp [hL]))
      rw [hL] at hr
      unfold readDecimal
      split
      · rename_i heq
        simp at heq
        exact absurd heq.1 hc
      · simp [hr]
  | negSucc n =>
    simp only [to_string, readDecimal, readNat_toDigits]
    simp [Int.negSucc_eq]

theorem to_string_no_space (v : Int) : ' ' ∉ to_string v := by
  cases v with
  | ofNat n =>
    intro h
    exact isDigit_ne_space _ ((toDigits_spec n).2.1 _ h) rfl
  | negSucc n =>
    intro h
    simp only [to_string, List.mem_cons] at h
    rcases h with h | h
    · exact absurd h (by decide)
    · exact isDigit_ne_space _ ((toDigits_spec (n + 1)).2.1 _ h) rfl

theorem to_string_ne_nil (v : Int) : to_string v ≠ [] := by
  cases v with
  | ofNat n => exact (toDigits_spec n).1
  | negSucc n => simp [to_string]

theorem splitSpaces_ne_nil (s : Str) : splitSpaces s ≠ [] := by
  induction s with
  | nil => simp [splitSpaces]
  | cons c t ih =>
    unfold splitSpaces
    split
    · simp
    · split <;> simp

theorem splitSpaces_no_space (s : Str) (h : ' ' ∉ s) : splitSpaces s = [s] := by
  induction s with
  | nil => rfl
  | cons c t ih =>
    have hc : c ≠ ' ' := fun e => h (by simp [e])
    have ht : ' ' ∉ t := fun e => h (List.mem_cons_of_mem _ e)
    simp [splitSpaces, hc, ih ht]

theorem splitSpaces_append (s t : Str) (h : ' ' ∉ s) :
    splitSpaces (s ++ ' ' :: t) = s :: splitSpaces t := by
  induction s with
  | nil => simp [splitSpaces]
  | cons c r ih =>
    have hc : c ≠ ' ' := fun e => h (by simp [e])
    have hr : ' ' ∉ r := fun e => h (List.mem_cons_of_mem _ e)
    simp [splitSpaces, hc, ih hr]

theorem splitSpaces_renderPath (v : Int) (p : List Int) :
    splitSpaces (renderPath (v :: p)) = (v :: p).map to_string := by
  induction p generalizing v with
  | nil => simp [renderPath, splitSpaces_no_space _ (to_string_no_space v)]
  | cons w rest ih =>
    simp only [renderPath]
    rw [splitSpaces_append _ _ (to_string_no_space v), ih w]
    simp

theorem readAll_to_string (p : List Int) : readAll (p.map to_string) = some p := by
  induction p with
  | nil => rfl
  | cons v rest ih =>
    simp [readAll, readDecimal_to_string, ih]

theorem decodePath_renderPath (v : Int) (p : List Int) :
    decodePath (renderPath (v :: p)) = some (v :: p) := by
  unfold decodePath
  rw [splitSpaces_renderPath]
  exact readAll_to_string (v :: p)

theorem renderPath_ne_noPath (p : List Int) : renderPath p ≠ noPath := by
  intro h
  cases p with
  | nil => exact absurd h (by decide)
  | cons v rest =>
    have h1 := decodePath_renderPath v rest
    have h2 : decodePath noPath = none := by decide
    rw [h, h2] at h1
    exact absurd h1 (by simp)
/-! ## Paths -/

theorem WalkTo.ne_nil {g : Graph} {s : Int} {W : List Int} {v : Int} (h : WalkTo g s W v) :
    W ≠ [] := by
  cases h <;> simp

theorem WalkTo.length_pos {g : Graph} {s : Int} {W : List Int} {v : Int} (h : WalkTo g s W v) :
    1 ≤ W.length := by
  cases h <;> simp

theorem WalkTo.isPath {g : Graph} {s : Int} {W : List Int} {v : Int} (h : WalkTo g s W v) :
    IsPath g s v W := by
  induction h with
  | single => simp [IsPath]
  | snoc hw hv ih =>
    rename_i W u v
    obtain ⟨h1, h2, h3⟩ := ih
    refine ⟨?_, by simp, ?_⟩
    · cases W with
      | nil => simp at h1
      | cons a t => simpa using h1
    · rw [List.chain'_append]
      refine ⟨h3, by simp, ?_⟩
      intro x hx y hy
      rw [h2] at hx
      simp at hx hy
      subst hx; subst hy
      exact hv

theorem IsPath.walkTo {g : Graph} {s : Int} (W : List Int) :
    ∀ v, IsPath g s v W → WalkTo g s W v := by
  induction W using List.reverseRecOn with
  | nil => intro v h; simp [IsPath] at h
  | append_singleton W x ih =>
    intro v ⟨h1, h2, h3⟩
    simp at h2
    subst h2
    cases hW : W.getLast? with
    | none =>
      have : W = [] := by simpa using hW
      subst this
      simp at h1
      subst h1
      exact WalkTo.single
    | some u =>
      rw [List.chain'_append] at h3
      obtain ⟨c1, _, c3⟩ := h3
      have hne : W ≠ [] := by
        intro e; subst e; simp at hW
      have hh : W.head? = some s := by
        cases W with
        | nil => exact absurd rfl hne
        | cons a t => simpa using h1
      exact WalkTo.snoc (ih u ⟨hh, hW, c1⟩) (c3 u hW x (by simp))

theorem isPath_iff_walkTo (g : Graph) (s v : Int) (W : List Int) :
    IsPath g s v W ↔ WalkTo g s W v :=
  ⟨IsPath.walkTo W v, WalkTo.isPath⟩

theorem WalkTo.eq_of_length_one {g : Graph} {s : Int} {W : List Int} {v : Int}
    (h : WalkTo g s W v) (hl : W.length = 1) : v = s ∧ W = [s] := by
  cases h with
  | single => exact ⟨rfl, rfl⟩
  | snoc hw hv =>
    have := hw.length_pos
    rw [List.length_append, List.length_singleton] at hl
    exfalso
    omega

/-- Either a path is the single vertex `s`, or it extends a shorter path by an edge. -/
theorem WalkTo.cases_snoc {g : Graph} {s : Int} {W : List Int} {v : Int} (h : WalkTo g s W v) :
    (v = s ∧ W = [s]) ∨ ∃ W' u, WalkTo g s W' u ∧ v ∈ neighbors g u ∧ W = W' ++ [v] := by
  cases h with
  | single => exact Or.inl ⟨rfl, rfl⟩
  | snoc hw hv => exact Or.inr ⟨_, _, hw, hv, rfl⟩

theorem rk_single_snoc (g : Graph) (s x : Int) : rk g s ([s] ++ [x]) = (neighbors g s).indexOf x := by
  simp [rk]

theorem rk_snoc (g : Graph) (s x : Int) (l : List Int) (h : 2 ≤ l.length) :
    rk g s (l ++ [x]) = rk g s l := by
  unfold rk
  congr 1
  match l, h with
  | a :: b :: t, _ => simp
/-! ## The loop invariant of `Graph::bfs` -/

theorem keyLe_refl (g : Graph) (s : Int) (P : Int → List Int) (a : Int) : keyLe g s P a a :=
  Or.inr ⟨rfl, le_refl _⟩

theorem keyLe.len_le {g : Graph} {s : Int} {P : Int → List Int} {a b : Int}
    (h : keyLe g s P a b) : (P a).length ≤ (P b).length := by
  rcases h with h | h
  · exact Nat.le_of_lt h
  · exact Nat.le_of_eq h.1

theorem keyLe.rk_le {g : Graph} {s : Int} {P : Int → List Int} {a b : Int}
    (h : keyLe g s P a b) (hl : (P b).length ≤ (P a).length) :
    rk g s (P a) ≤ rk g s (P b) := by
  rcases h with h | h
  · omega
  · exact h.2

/-- The invariant holds on entering the loop. -/
theorem Inv.init (g : Graph) (s d : Int) :
    Inv g s d (visOf (bfsInit s)) (bfsInit s).vertex_parents [s] [] (fun v => [v]) := by
  have hv : ∀ v, visOf (bfsInit s) v = true → v = s := by
    intro v h
    simp only [visOf, bfsInit, StdMap.getD_insert] at h
    by_contra hne
    have : ¬ s = v := fun e => hne e.symm
    simp [this, StdMap.getD, StdMap.find] at h
  have hs : visOf (bfsInit s) s = true := by
    simp [visOf, bfsInit, StdMap.getD_insert]
  refine
    { s_vis := hs
      s_P := rfl
      s_par := rfl
      walk := ?_
      par_spec := ?_
      par_keys := ?_
      len_le := ?_
      q_vis := ?_
      q_nodup := by simp
      q_sorted := by simp
      q_span := ?_
      done_spec := by simp
      proc_ne := ?_
      proc_nb := ?_
      proc_le := ?_
      opt := ?_
      tie := ?_ }
  · intro v h; rw [hv v h]; exact WalkTo.single
  · intro v h hne; exact absurd (hv v h) hne
  · intro v p h; simp [bfsInit, StdMap.find] at h
  · intro v h; simp
  · intro w hw; simp at hw; rw [hw]; exact hs
  · intro a ha b hb; simp
  · intro u h hu; exact absurd (hv u h) (by simpa using hu)
  · intro u h hu; exact absurd (hv u h) (by simpa using hu)
  · intro u h hu; exact absurd (hv u h) (by simpa using hu)
  · intro v h W hW; simpa using hW.length_pos
  · intro v h hne; exact absurd (hv v h) hne

/-- Every path from `s` ends in a visited vertex whose recorded path is no longer,
unless it is longer than the recorded path of some queued vertex. -/
theorem Inv.reach {g : Graph} {s d : Int} {vis : Int → Bool} {par : StdMap Int Int}
    {Q done : List Int} {P : Int → List Int} (h : Inv g s d vis par Q done P)
    {W : List Int} {x : Int} (hW : WalkTo g s W x) :
    (vis x = true ∧ (P x).length ≤ W.length) ∨ ∃ w ∈ Q, (P w).length < W.length := by
  induction hW with
  | single => left; exact ⟨h.s_vis, by simp [h.s_P]⟩
  | snoc hw hv ih =>
    rename_i W u v
    rcases ih with ⟨hu, hlen⟩ | ⟨w, hwQ, hlt⟩
    · by_cases huQ : u ∈ Q
      · right
        exact ⟨u, huQ, by simp; omega⟩
      · left
        obtain ⟨h1, h2⟩ := h.proc_nb u hu huQ v hv
        exact ⟨h1, by simp; omega⟩
    · right
      exact ⟨w, hwQ, by simp; omega⟩

/-- When the queue is empty, exactly the visited vertices can be reached. -/
theorem Inv.no_path_of_empty {g : Graph} {s d : Int} {vis : Int → Bool}
    {par : StdMap Int Int} {done : List Int} {P : Int → List Int}
    (h : Inv g s d vis par [] done P) : ∀ W, ¬ WalkTo g s W d := by
  intro W hW
  rcases h.reach hW with ⟨hv, _⟩ | ⟨w, hw, _⟩
  · exact h.proc_ne d hv (by simp) rfl
  · simp at hw

/-- A neighbor that is already visited is skipped. -/
theorem Inv.skip {g : Graph} {s d : Int} {vis : Int → Bool} {par : StdMap Int Int}
    {cur : Int} {q done : List Int} {P : Int → List Int}
    (h : Inv g s d vis par (cur :: q) done P) {n : Int} (hn : vis n = true) :
    Inv g s d vis par (cur :: q) (done ++ [n]) P := by
  refine { h with par_spec := ?_, done_spec := ?_ }
  · intro v hv hne
    obtain ⟨p, h1, h2, h3, h4, h5⟩ := h.par_spec v hv hne
    exact ⟨p, h1, h2, h3, h4, fun hp => ⟨(h5 hp).1, List.mem_append_left _ (h5 hp).2⟩⟩
  · intro c hc x hx
    rcases List.mem_append.1 hx with hx | hx
    · exact h.done_spec c hc x hx
    · simp at hx hc
      subst hx; subst hc
      refine ⟨hn, ?_⟩
      by_cases hq : x ∈ cur :: q
      · exact h.q_span cur (by simp) x hq
      · have := (h.proc_le x hn hq cur (by simp)).len_le
        omega

/-- Once all its neighbors have been looked at, the front vertex leaves the queue. -/
theorem Inv.pop {g : Graph} {s d : Int} {vis : Int → Bool} {par : StdMap Int Int}
    {cur : Int} {q : List Int} {P : Int → List Int}
    (h : Inv g s d vis par (cur :: q) (neighbors g cur) P) (hd : cur ≠ d) :
    Inv g s d vis par q [] P := by
  have hnd := h.q_nodup
  rw [List.nodup_cons] at hnd
  have hsorted := h.q_sorted
  rw [List.pairwise_cons] at hsorted
  refine
    { h with
      par_spec := ?_
      q_vis := fun w hw => h.q_vis w (List.mem_cons_of_mem _ hw)
      q_nodup := hnd.2
      q_sorted := hsorted.2
      q_span := fun a ha b hb =>
        h.q_span a (List.mem_cons_of_mem _ ha) b (List.mem_cons_of_mem _ hb)
      done_spec := by simp
      proc_ne := ?_
      proc_nb := ?_
      proc_le := ?_ }
  · intro v hv hne
    obtain ⟨p, h1, h2, h3, h4, h5⟩ := h.par_spec v hv hne
    refine ⟨p, h1, h2, h3, h4, ?_⟩
    intro hp
    have := (h5 (List.mem_cons_of_mem _ hp)).1
    simp at this
    subst this
    exact absurd hp hnd.1
  · intro u hu huq
    by_cases e : u = cur
    · rw [e]; exact hd
    · exact h.proc_ne u hu (by simp [e, huq])
  · intro u hu huq n hn
    by_cases e : u = cur
    · subst e
      exact h.done_spec u rfl n hn
    · exact h.proc_nb u hu (by simp [e, huq]) n hn
  · intro u hu huq w hw
    by_cases e : u = cur
    · subst e
      exact hsorted.1 w hw
    · exact h.proc_le u hu (by simp [e, huq]) w (List.mem_cons_of_mem _ hw)
theorem indexOf_le_of_mem_left (a n : Int) (l₁ l₂ : List Int) (ha : a ∈ l₁) (hn : n ∉ l₁) :
    (l₁ ++ n :: l₂).indexOf a ≤ (l₁ ++ n :: l₂).indexOf n := by
  rw [List.indexOf_append_of_mem ha, List.indexOf_append_of_not_mem hn]
  have := List.indexOf_lt_length.2 ha
  omega

/-- A neighbor seen for the first time is marked, given its parent and queued. -/
theorem Inv.push {g : Graph} {s d : Int} {vis : Int → Bool} {par : StdMap Int Int}
    {cur : Int} {q done : List Int} {P : Int → List Int}
    (h : Inv g s d vis par (cur :: q) done P) {n : Int} {todo : List Int}
    (hN : neighbors g cur = done ++ n :: todo) (hn : vis n = false)
    {vis' : Int → Bool} {P' : Int → List Int}
    (hV : ∀ v, vis' v = if n = v then true else vis v)
    (hP' : ∀ v, P' v = if n = v then P cur ++ [n] else P v) :
    Inv g s d vis' (StdMap.insert par n cur) (cur :: (q ++ [n])) (done ++ [n]) P' := by
  have hcur : vis cur = true := h.q_vis cur (by simp)
  have hne : ∀ v, vis v = true → ¬ n = v := by
    intro v hv e; subst e; rw [hn] at hv; exact Bool.false_ne_true hv
  have hP : ∀ v, vis v = true → P' v = P v := by
    intro v hv; simp [hP', hne v hv]
  have hPn : P' n = P cur ++ [n] := by simp [hP']
  have hvis : ∀ v, vis v = true → vis' v = true := by
    intro v hv; simp [hV, hv]
  have hvn : vis' n = true := by simp [hV]
  have hvis' : ∀ v, vis' v = true → v = n ∨ vis v = true := by
    intro v hv
    by_cases e : n = v
    · exact Or.inl e.symm
    · right; simpa [hV, e] using hv
  have hnQ : n ∉ cur :: q := fun hm => hne n (h.q_vis n hm) rfl
  have hparn : StdMap.find par n = none := by
    cases hf : StdMap.find par n with
    | none => rfl
    | some p => exact absurd rfl (hne n (h.par_keys n p hf))
  have hnin : n ∈ neighbors g cur := by rw [hN]; simp
  have hsorted := h.q_sorted
  rw [List.pairwise_cons] at hsorted
  have hcur_le : ∀ a ∈ cur :: q, keyLe g s P cur a := by
    intro a ha
    rcases List.mem_cons.1 ha with e | ha
    · rw [e]; exact keyLe_refl g s P cur
    · exact hsorted.1 a ha
  have hlen1 : ∀ v, vis v = true → (P v).length = 1 → v = s := fun v hv hl =>
    ((h.walk v hv).eq_of_length_one hl).1
  have hlen2 : ∀ v, vis v = true → v ≠ s → 2 ≤ (P v).length := by
    intro v hv hvs
    have h1 := (h.walk v hv).length_pos
    by_contra hlt
    exact hvs (hlen1 v hv (by omega))
  have hkey : ∀ a b, vis a = true → vis b = true → keyLe g s P a b →
      keyLe g s P' a b := by
    intro a b ha hb hab
    unfold keyLe
    rw [hP a ha, hP b hb]
    exact hab
  have hndone : n ∉ done := fun hm => hne n (h.done_spec cur rfl n hm).1 rfl
  have hrkn : cur ≠ s → rk g s (P cur ++ [n]) = rk g s (P cur) := fun hcs =>
    rk_snoc g s n (P cur) (hlen2 cur hcur hcs)
  have hQ' : cur :: (q ++ [n]) = (cur :: q) ++ [n] := rfl
  have hmemQ' : ∀ w, w ∈ cur :: (q ++ [n]) ↔ w ∈ cur :: q ∨ w = n := by
    intro w; rw [hQ']; simp [or_assoc]
  -- a path to `n` ends with an edge from a queued vertex
  have hlast : ∀ W, WalkTo g s W n → ∃ W' u, WalkTo g s W' u ∧ W = W' ++ [n] ∧
      ((u ∈ cur :: q ∧ vis u = true ∧ (P u).length ≤ W'.length) ∨
        ∃ w ∈ cur :: q, (P w).length < W'.length) := by
    intro W hW
    rcases hW.cases_snoc with ⟨e, _⟩ | ⟨W', u, hW', hu, hWe⟩
    · exact absurd e (hne s h.s_vis)
    · refine ⟨W', u, hW', hWe, ?_⟩
      rcases h.reach hW' with ⟨hvu, hlu⟩ | hex
      · left
        refine ⟨?_, hvu, hlu⟩
        by_contra huQ
        exact hne n (h.proc_nb u hvu huQ n hu).1 rfl
      · exact Or.inr hex
  refine
    { s_vis := hvis s h.s_vis
      s_P := by rw [hP s h.s_vis]; exact h.s_P
      s_par := by rw [StdMap.find_insert_ne par cur (hne s h.s_vis)]; exact h.s_par
      walk := ?_
      par_spec := ?_
      par_keys := ?_
      len_le := ?_
      q_vis := ?_
      q_nodup := ?_
      q_sorted := ?_
      q_span := ?_
      done_spec := ?_
      proc_ne := ?_
      proc_nb := ?_
      proc_le := ?_
      opt := ?_
      tie := ?_ }
  · -- walk
    intro v hv
    rcases hvis' v hv with e | hv
    · subst e; rw [hPn]; exact WalkTo.snoc (h.walk cur hcur) hnin
    · rw [hP v hv]; exact h.walk v hv
  · -- par_spec
    intro v hv hvs
    rcases hvis' v hv with e | hv
    · subst e
      refine ⟨cur, StdMap.find_insert_self par v cur, hvis cur hcur, hnin, ?_, ?_⟩
      · rw [hPn, hP cur hcur]
      · intro _; exact ⟨rfl, by simp⟩
    · obtain ⟨p, h1, h2, h3, h4, h5⟩ := h.par_spec v hv hvs
      refine ⟨p, ?_, hvis p h2, h3, ?_, ?_⟩
      · rw [StdMap.find_insert_ne par cur (hne v hv)]; exact h1
      · rw [hP v hv, hP p h2]; exact h4
      · intro hp
        rcases (hmemQ' p).1 hp with hp | hp
        · obtain ⟨e1, e2⟩ := h5 hp
          exact ⟨by simpa using e1, List.mem_append_left _ e2⟩
        · exact absurd hp.symm (hne p h2)
  · -- par_keys
    intro v p hf
    rw [StdMap.find_insert] at hf
    by_cases e : n = v
    · rw [← e]; exact hvn
    · rw [if_neg e] at hf
      exact hvis v (h.par_keys v p hf)
  · -- len_le
    intro v hv
    rw [StdMap.size_insert_of_find_none par n cur hparn]
    rcases hvis' v hv with e | hv
    · subst e
      rw [hPn]
      have := h.len_le cur hcur
      simp
      omega
    · rw [hP v hv]
      have := h.len_le v hv
      omega
  · -- q_vis
    intro w hw
    rcases (hmemQ' w).1 hw with hw | hw
    · exact hvis w (h.q_vis w hw)
    · rw [hw]; exact hvn
  · -- q_nodup
    rw [hQ', List.nodup_append]
    refine ⟨h.q_nodup, by simp, ?_⟩
    intro a ha hb
    simp at hb
    subst hb
    exact hnQ ha
  · -- q_sorted
    rw [hQ', List.pairwise_append]
    refine ⟨?_, by simp, ?_⟩
    · exact h.q_sorted.imp_of_mem
        (fun {a b} ha hb hab => hkey a b (h.q_vis a ha) (h.q_vis b hb) hab)
    · intro a ha b hb
      simp at hb
      subst hb
      have hva := h.q_vis a ha
      unfold keyLe
      rw [hP a hva, hPn]
      have hspan := h.q_span cur (by simp) a ha
      by_cases hlt : (P a).length < (P cur ++ [b]).length
      · exact Or.inl hlt
      · right
        simp only [List.length_append, List.length_singleton] at hlt ⊢
        have hla : (P a).length = (P cur).length + 1 := by omega
        refine ⟨hla, ?_⟩
        have hcl := (h.walk cur hcur).length_pos
        have has : a ≠ s := by
          intro e
          have h1 : (P a).length = 1 := by rw [e, h.s_P]; rfl
          omega
        obtain ⟨p, _, hvp, hap, hPa, hpQ⟩ := h.par_spec a hva has
        have hlp : (P p).length = (P cur).length := by
          rw [hPa] at hla
          simpa using hla
        by_cases hcs : cur = s
        · have hps : p = s := hlen1 p hvp (by rw [hlp, hcs, h.s_P]; rfl)
          have hpin : p ∈ cur :: q := by rw [hps, ← hcs]; simp
          have hadone := (hpQ hpin).2
          rw [hPa, hps, hcs, h.s_P, rk_single_snoc, rk_single_snoc, ← hcs, hN]
          exact indexOf_le_of_mem_left a b done todo hadone hndone
        · have hps : p ≠ s := by
            intro e
            rw [e, h.s_P] at hlp
            exact hcs (hlen1 cur hcur hlp.symm)
          rw [hrkn hcs, hPa, rk_snoc g s a (P p) (hlen2 p hvp hps)]
          by_cases hpin : p ∈ cur :: q
          · have := (hpQ hpin).1
            simp at this
            rw [this]
          · exact (h.proc_le p hvp hpin cur (by simp)).rk_le (by omega)
  · -- q_span
    intro a ha b hb
    have hcl : ∀ a ∈ cur :: q, (P cur).length ≤ (P a).length := fun a ha => (hcur_le a ha).len_le
    rcases (hmemQ' a).1 ha with ha1 | ha1 <;> rcases (hmemQ' b).1 hb with hb1 | hb1
    · rw [hP a (h.q_vis a ha1), hP b (h.q_vis b hb1)]
      exact h.q_span a ha1 b hb1
    · rw [hb1, hP a (h.q_vis a ha1), hPn]
      have := hcl a ha1
      simp
      omega
    · rw [ha1, hP b (h.q_vis b hb1), hPn]
      have := h.q_span cur (by simp) b hb1
      simp
      omega
    · rw [ha1, hb1]; omega
  · -- done_spec
    intro c hc x hx
    simp at hc
    rw [← hc, hP cur hcur]
    rcases List.mem_append.1 hx with hx | hx
    · obtain ⟨h1, h2⟩ := h.done_spec cur rfl x hx
      exact ⟨hvis x h1, by rw [hP x h1]; exact h2⟩
    · simp at hx
      rw [hx]
      exact ⟨hvn, by rw [hPn]; simp⟩
  · -- proc_ne
    intro u hu huQ
    rw [hmemQ'] at huQ
    push_neg at huQ
    rcases hvis' u hu with e | hu
    · exact absurd e huQ.2
    · exact h.proc_ne u hu huQ.1
  · -- proc_nb
    intro u hu huQ m hm
    rw [hmemQ'] at huQ
    push_neg at huQ
    rcases hvis' u hu with e | hu
    · exact absurd e huQ.2
    · obtain ⟨h1, h2⟩ := h.proc_nb u hu huQ.1 m hm
      exact ⟨hvis m h1, by rw [hP m h1, hP u hu]; exact h2⟩
  · -- proc_le
    intro u hu huQ w hw
    rw [hmemQ'] at huQ
    push_neg at huQ
    rcases hvis' u hu with e | hu
    · exact absurd e huQ.2
    · rcases (hmemQ' w).1 hw with hw | hw
      · exact hkey u w hu (h.q_vis w hw) (h.proc_le u hu huQ.1 w hw)
      · subst hw
        left
        rw [hP u hu, hPn]
        have := (h.proc_le u hu huQ.1 cur (by simp)).len_le
        simp
        omega
  · -- opt
    intro v hv W hW
    rcases hvis' v hv with e | hv
    · subst e
      rw [hPn]
      obtain ⟨W', u, hW', hWe, hcase⟩ := hlast W hW
      rw [hWe]
      simp only [List.length_append, List.length_singleton]
      rcases hcase with ⟨huQ, _, hlu⟩ | ⟨w, hwQ, hlw⟩
      · have := (hcur_le u huQ).len_le
        omega
      · have := (hcur_le w hwQ).len_le
        omega
    · rw [hP v hv]; exact h.opt v hv W hW
  · -- tie
    intro v hv hvs W hW hWl
    rcases hvis' v hv with e | hv
    · subst e
      rw [hPn] at hWl ⊢
      obtain ⟨W', u, hW', hWe, hcase⟩ := hlast W hW
      rw [hWe] at hWl ⊢
      simp only [List.length_append, List.length_singleton] at hWl
      rcases hcase with ⟨huQ, hvu, hlu⟩ | ⟨w, hwQ, hlw⟩
      · have hcu := hcur_le u huQ
        have hcul := hcu.len_le
        by_cases hcs : cur = s
        · have hW1 : W'.length = 1 := by
            rw [hcs, h.s_P] at hWl
            simpa using hWl
          rw [(hW'.eq_of_length_one hW1).2, hcs, h.s_P]
        · have h2 := hlen2 cur hcur hcs
          have hus : u ≠ s := by
            intro e
            rw [e, h.s_P] at hcul
            simp at hcul
            omega
          rw [hrkn hcs, rk_snoc g s v W' (by omega)]
          calc rk g s (P cur) ≤ rk g s (P u) := hcu.rk_le (by omega)
            _ ≤ rk g s W' := h.tie u hvu hus W' hW' (by omega)
      · have := (hcur_le w hwQ).len_le
        omega
    · rw [hP v hv] at hWl ⊢
      exact h.tie v hv hvs W hW hWl
theorem neighbors_subset_allNeighbors (g : Graph) (u n : Int) (h : n ∈ neighbors g u) :
    n ∈ allNeighbors g := by
  unfold neighbors at h
  cases hf : StdMap.find g u with
  | none => rw [hf] at h; simp at h
  | some l =>
    rw [hf] at h
    simp only at h
    unfold allNeighbors
    rw [List.mem_flatMap]
    exact ⟨(u, l), StdMap.mem_of_find g u l hf, h⟩

theorem unvisited_mark (vis vis' : Int → Bool) (n : Int) (U : List Int)
    (hV : ∀ v, vis' v = if n = v then true else vis v) :
    unvisited vis' U ≤ unvisited vis U ∧
      (n ∈ U → vis n = false → unvisited vis' U + 1 ≤ unvisited vis U) := by
  induction U with
  | nil => simp [unvisited]
  | cons a t ih =>
    unfold unvisited at ih ⊢
    by_cases e : n = a
    · subst e
      have h1 : vis' n = true := by simp [hV]
      refine ⟨?_, ?_⟩
      · simp only [List.filter_cons, h1]
        cases vis n <;> simp <;> omega
      · intro _ hn
        simp only [List.filter_cons, h1, hn]
        simp
        omega
    · have h1 : vis' a = vis a := by simp [hV, e]
      refine ⟨?_, ?_⟩
      · simp only [List.filter_cons, h1]
        cases vis a <;> simp <;> omega
      · intro hm hn
        have hm' : n ∈ t := by
          rcases List.mem_cons.1 hm with hm | hm
          · exact absurd hm e
          · exact hm
        have := ih.2 hm' hn
        simp only [List.filter_cons, h1]
        cases vis a <;> simp <;> omega

theorem visOf_visitNeighbor_seen (cur : Int) (st : BfsState) (n : Int)
    (h : visOf st n = true) :
    visitNeighbor cur st n =
      { st with visited_vertex := StdMap.touch st.visited_vertex n false } ∧
    visOf (visitNeighbor cur st n) = visOf st := by
  have h' : StdMap.getD st.visited_vertex n false = true := h
  have e : visitNeighbor cur st n =
      { st with visited_vertex := StdMap.touch st.visited_vertex n false } := by
    simp [visitNeighbor, h']
  refine ⟨e, ?_⟩
  rw [e]
  funext v
  simp [visOf, StdMap.getD_touch]

theorem visOf_visitNeighbor_new (cur : Int) (st : BfsState) (n : Int)
    (h : visOf st n = false) :
    visitNeighbor cur st n =
      { q := st.q ++ [n]
        visited_vertex := StdMap.insert (StdMap.touch st.visited_vertex n false) n true
        vertex_parents := StdMap.insert st.vertex_parents n cur } ∧
    ∀ v, visOf (visitNeighbor cur st n) v = if n = v then true else visOf st v := by
  have h' : StdMap.getD st.visited_vertex n false = false := h
  have e : visitNeighbor cur st n =
      { q := st.q ++ [n]
        visited_vertex := StdMap.insert (StdMap.touch st.visited_vertex n false) n true
        vertex_parents := StdMap.insert st.vertex_parents n cur } := by
    simp [visitNeighbor, h']
  refine ⟨e, ?_⟩
  intro v
  rw [e]
  simp [visOf, StdMap.getD_insert, StdMap.getD_touch]

/-- The `for` loop over the neighbors keeps the invariant and does not increase the
number of queued plus unvisited vertices. -/
theorem visitNeighbors_inv (g : Graph) (s d cur : Int) :
    ∀ (todo done : List Int) (st : BfsState) (P : Int → List Int),
      neighbors g cur = done ++ todo →
      Inv g s d (visOf st) st.vertex_parents (cur :: st.q) done P →
      ∃ P', Inv g s d (visOf (visitNeighbors cur st todo))
          (visitNeighbors cur st todo).vertex_parents
          (cur :: (visitNeighbors cur st todo).q) (neighbors g cur) P' ∧
        (visitNeighbors cur st todo).q.length +
            unvisited (visOf (visitNeighbors cur st todo)) (allNeighbors g) ≤
          st.q.length + unvisited (visOf st) (allNeighbors g) := by
  intro todo
  induction todo with
  | nil =>
    intro done st P hN h
    simp only [List.append_nil] at hN
    rw [hN]
    exact ⟨P, h, le_refl _⟩
  | cons n todo ih =>
    intro done st P hN h
    have hN' : neighbors g cur = (done ++ [n]) ++ todo := by simpa using hN
    have hnin : n ∈ neighbors g cur := by rw [hN]; simp
    have hfold : visitNeighbors cur st (n :: todo) =
        visitNeighbors cur (visitNeighbor cur st n) todo := rfl
    rw [hfold]
    cases hv : visOf st n with
    | true =>
      obtain ⟨e, ev⟩ := visOf_visitNeighbor_seen cur st n hv
      have hq : (visitNeighbor cur st n).q = st.q := by rw [e]
      have hp : (visitNeighbor cur st n).vertex_parents = st.vertex_parents := by rw [e]
      have h1 : Inv g s d (visOf (visitNeighbor cur st n))
          (visitNeighbor cur st n).vertex_parents (cur :: (visitNeighbor cur st n).q)
          (done ++ [n]) P := by
        rw [ev, hq, hp]
        exact h.skip hv
      obtain ⟨P', hI, hm⟩ := ih (done ++ [n]) (visitNeighbor cur st n) P hN' h1
      refine ⟨P', hI, ?_⟩
      rw [ev, hq] at hm
      exact hm
    | false =>
      obtain ⟨e, ev⟩ := visOf_visitNeighbor_new cur st n hv
      have hq : (visitNeighbor cur st n).q = st.q ++ [n] := by rw [e]
      have hp : (visitNeighbor cur st n).vertex_parents =
          StdMap.insert st.vertex_parents n cur := by rw [e]
      have h1 : Inv g s d (visOf (visitNeighbor cur st n))
          (visitNeighbor cur st n).vertex_parents (cur :: (visitNeighbor cur st n).q)
          (done ++ [n]) (fun v => if n = v then P cur ++ [n] else P v) := by
        rw [hq, hp]
        exact h.push hN hv ev (fun _ => rfl)
      obtain ⟨P', hI, hm⟩ := ih (done ++ [n]) (visitNeighbor cur st n) _ hN' h1
      refine ⟨P', hI, ?_⟩
      have hu := (unvisited_mark (visOf st) (visOf (visitNeighbor cur st n)) n
        (allNeighbors g) ev).2 (neighbors_subset_allNeighbors g cur n hnin) hv
      rw [hq] at hm
      simp only [List.length_append, List.length_singleton] at hm
      omega

/-- The loop that walks the parent map rebuilds the recorded path. -/
theorem pathLoop_spec {g : Graph} {s d : Int} {vis : Int → Bool} {par : StdMap Int Int}
    {Q done : List Int} {P : Int → List Int} (h : Inv g s d vis par Q done P) :
    ∀ (fuel : Nat) (v : Int) (tail : List Int), vis v = true → (P v).length ≤ fuel →
      pathLoop par fuel v (renderPath (v :: tail)) = some (renderPath (P v ++ tail)) := by
  intro fuel
  induction fuel with
  | zero =>
    intro v tail hv hl
    have := (h.walk v hv).length_pos
    omega
  | succ fuel ih =>
    intro v tail hv hl
    by_cases hvs : v = s
    · subst hvs
      simp [pathLoop, h.s_par, h.s_P]
    · obtain ⟨p, h1, h2, _, h4, _⟩ := h.par_spec v hv hvs
      have hlp : (P p).length ≤ fuel := by
        rw [h4] at hl
        simp at hl
        omega
      have := ih p (v :: tail) h2 hlp
      simp only [pathLoop, h1]
      rw [h4]
      simpa [renderPath] using this

/-- The main loop ends within its fuel and answers as `BfsPost` requires. -/
theorem bfsLoop_spec (g : Graph) (s d : Int) :
    ∀ (fuel : Nat) (st : BfsState) (P : Int → List Int),
      Inv g s d (visOf st) st.vertex_parents st.q [] P →
      st.q.length + unvisited (visOf st) (allNeighbors g) < fuel →
      ∃ r, bfsLoop g d fuel st = some r ∧ BfsPost g s d r := by
  intro fuel
  induction fuel with
  | zero => intro st P _ hm; omega
  | succ fuel ih =>
    intro st P h hm
    cases hq : st.q with
    | nil =>
      rw [hq] at h
      refine ⟨noPath, by simp [bfsLoop, hq], Or.inl ⟨rfl, h.no_path_of_empty⟩⟩
    | cons cur rest =>
      rw [hq] at h hm
      by_cases hcd : cur = d
      · subst hcd
        have hv := h.q_vis cur (by simp)
        have hp := pathLoop_spec h (StdMap.size st.vertex_parents + 1) cur [] hv
          (h.len_le cur hv)
        refine ⟨renderPath (P cur), ?_, Or.inr ⟨P cur, rfl, h.walk cur hv, h.opt cur hv, ?_⟩⟩
        · simp only [bfsLoop, hq, if_true]
          simpa [renderPath] using hp
        · intro hne
          exact h.tie cur hv hne
      · obtain ⟨P', hI, hle⟩ := visitNeighbors_inv g s d cur (neighbors g cur) []
          { st with q := rest } P (by simp) h
        have hI' := hI.pop hcd
        simp only [List.length_cons] at hm
        have hm' : (visitNeighbors cur { st with q := rest } (neighbors g cur)).q.length +
            unvisited (visOf (visitNeighbors cur { st with q := rest } (neighbors g cur)))
              (allNeighbors g) < fuel := by
          have e : visOf { st with q := rest } = visOf st := rfl
          rw [e] at hle
          simp only at hle
          omega
        obtain ⟨r, hr, hpost⟩ := ih _ P' hI' hm'
        exact ⟨r, by simp only [bfsLoop, hq, if_neg hcd]; exact hr, hpost⟩

/-- The method `Graph::bfs` returns, and its answer satisfies `BfsPost`. -/
theorem bfs_spec (g : Graph) (s d : Int) : ∃ r, bfs g s d = some r ∧ BfsPost g s d r := by
  apply bfsLoop_spec g s d (bfsFuel g) (bfsInit s) (fun v => [v]) (Inv.init g s d)
  have : unvisited (visOf (bfsInit s)) (allNeighbors g) ≤ (allNeighbors g).length :=
    List.length_filter_le _ _
  simp only [bfsFuel, bfsInit, List.length_singleton] at this ⊢
  omega
/-! ## Consequences for paths given as lists -/

theorem IsPath.two_le {g : Graph} {s d : Int} {W : List Int} (h : IsPath g s d W)
    (hne : s ≠ d) : 2 ≤ W.length := by
  obtain ⟨h1, h2, _⟩ := h
  match W, h1, h2 with
  | [a], h1, h2 =>
    simp at h1 h2
    exact absurd (h1.symm.trans h2) hne
  | a :: b :: t, _, _ => simp

theorem IsPath.second_mem {g : Graph} {s d : Int} {W : List Int} (h : IsPath g s d W)
    {b : Int} (hb : W.get? 1 = some b) : b ∈ neighbors g s := by
  obtain ⟨h1, _, h3⟩ := h
  match W, h1, hb, h3 with
  | a :: c :: t, h1, hb, h3 =>
    simp at h1 hb
    subst h1; subst hb
    exact (List.chain'_cons.1 h3).1

/-- A path from a vertex without adjacency list goes nowhere. -/
theorem IsPath.eq_of_neighbors_nil {g : Graph} {s d : Int} {W : List Int}
    (h : IsPath g s d W) (hn : neighbors g s = []) : s = d := by
  by_contra hne
  have h2 := h.two_le hne
  match W, h2, h with
  | a :: b :: t, _, h =>
    have hb := h.second_mem (b := b) (by simp)
    rw [hn] at hb
    simp at hb

/-- A path through a neighbor `a` of `s` can be cut short to start `s, a`. -/
theorem IsPath.shortcut {g : Graph} {s d : Int} {W : List Int} (h : IsPath g s d W)
    {a : Int} (ha : a ∈ neighbors g s) (has : a ≠ s) (haW : a ∈ W) :
    ∃ W', IsPath g s d W' ∧ W'.length ≤ W.length ∧ W'.get? 1 = some a := by
  obtain ⟨h1, h2, h3⟩ := h
  obtain ⟨T1, T2, hW⟩ := List.append_of_mem haW
  subst hW
  cases T1 with
  | nil =>
    simp at h1
    exact absurd h1 has
  | cons x T1 =>
    simp at h1
    subst h1
    refine ⟨x :: a :: T2, ⟨by simp, ?_, ?_⟩, by simp, by simp⟩
    · rw [← h2, List.getLast?_cons_cons]
      exact (List.getLast?_append_of_ne_nil (x :: T1) (by simp)).symm
    · rw [List.chain'_cons]
      exact ⟨ha, (List.chain'_append.1 h3).2.1⟩

/-- What `BfsPost` says when a path exists, in terms of `IsPath`. -/
theorem bfs_path (g : Graph) (s d : Int) (hr : Reachable g s d) :
    ∃ p, bfs g s d = some (renderPath p) ∧ decodePath (renderPath p) = some p ∧
      IsShortest g s d p ∧
      (d ≠ s → ∀ W, IsShortest g s d W → rk g s p ≤ rk g s W) := by
  obtain ⟨r, hb, hpost⟩ := bfs_spec g s d
  rcases hpost with ⟨_, hno⟩ | ⟨p, hrp, hw, hopt, htie⟩
  · obtain ⟨W, hW⟩ := hr
    exact absurd (IsPath.walkTo W d hW) (hno W)
  · refine ⟨p, by rw [hb, hrp], ?_, ⟨hw.isPath, ?_⟩, ?_⟩
    · obtain ⟨a, t, e⟩ := List.exists_cons_of_ne_nil hw.ne_nil
      rw [e]
      exact decodePath_renderPath a t
    · intro W hW
      exact hopt W (IsPath.walkTo W d hW)
    · intro hne W hW
      have h1 := hW.2 p hw.isPath
      have h2 := hopt W (IsPath.walkTo W d hW.1)
      exact htie hne W (IsPath.walkTo W d hW.1) (by omega)

theorem bfs_eq_noPath_iff (g : Graph) (s d : Int) :
    bfs g s d = some noPath ↔ ¬ Reachable g s d := by
  constructor
  · intro h hr
    obtain ⟨p, hp, _⟩ := bfs_path g s d hr
    rw [h] at hp
    simp at hp
    exact renderPath_ne_noPath p hp.symm
  · intro hr
    obtain ⟨r, hb, hpost⟩ := bfs_spec g s d
    rcases hpost with ⟨e, _⟩ | ⟨p, _, hw, _, _⟩
    · rw [hb, e]
    · exact absurd ⟨p, hw.isPath⟩ hr

theorem reachable_self (g : Graph) (v : Int) : Reachable g v v :=
  ⟨[v], by simp [IsPath]⟩

theorem rk_of_second (g : Graph) (s : Int) {W : List Int} {a : Int} (h : W.get? 1 = some a) :
    rk g s W = (neighbors g s).indexOf a := by
  match W, h with
  | x :: y :: t, h =>
    simp at h
    simp [rk, h]

theorem IsShortest.second_ne {g : Graph} {s d : Int} {p : List Int} (h : IsShortest g s d p)
    {b : Int} (hb : p.get? 1 = some b) : b ≠ s := by
  intro e
  obtain ⟨⟨h1, h2, h3⟩, hmin⟩ := h
  match p, h1, h2, h3, hb, hmin with
  | x :: y :: t, h1, h2, h3, hb, hmin =>
    simp at h1 hb
    have hp : IsPath g s d (y :: t) :=
      ⟨by simp [hb, e], by rw [← h2, List.getLast?_cons_cons], (List.chain'_cons.1 h3).2⟩
    have := hmin (y :: t) hp
    simp at this

/-- The tie-break rule holds whenever `dst` is another vertex that can be reached. -/
theorem tieBreak_of_reachable (g : Graph) (src dst : Int) (hne : src ≠ dst)
    (hr : Reachable g src dst) : TieBreak g src dst := by
  obtain ⟨p, hb, hdec, hshort, htie⟩ := bfs_path g src dst hr
  have h2 := hshort.1.two_le hne
  match p, h2, hb, hdec, hshort, htie with
  | x :: b :: t, _, hb, hdec, hshort, htie =>
    have hsec : (x :: b :: t).get? 1 = some b := by simp
    refine ⟨_, x :: b :: t, b, hb, hdec, hsec, hshort, hshort.1.second_mem hsec,
      hshort.second_ne hsec, ?_⟩
    intro a ha has ⟨W, hW, haW⟩
    obtain ⟨W', hW', hlen, hsecW⟩ := hW.1.shortcut ha has haW
    have hW's : IsShortest g src dst W' :=
      ⟨hW', fun V hV => le_trans hlen (hW.2 V hV)⟩
    have := htie (fun e => hne e.symm) W' hW's
    rw [rk_of_second g src hsec, rk_of_second g src hsecW] at this
    exact this
/-! ## The cache under one-at-a-time handling -/

theorem StdMap.size_eq_length_keys {K V : Type} (m : StdMap K V) :
    StdMap.size m = (StdMap.keys m).length := by
  simp [StdMap.size, StdMap.keys]

theorem CacheInv.empty (g : Graph) : CacheInv g Cache.empty :=
  { perm := List.Perm.refl _
    nodup := List.nodup_nil
    cap := by simp [Cache.empty, StdMap.size]
    sound := by intro k v h; simp [Cache.empty, StdMap.find] at h }

theorem CacheInv.length_eq {g : Graph} {c : Cache} (h : CacheInv g c) :
    c.order_of_last_request.length = StdMap.size c.last_requests := by
  rw [StdMap.size_eq_length_keys]
  exact h.perm.length_eq

theorem CacheInv.mem_order_iff {g : Graph} {c : Cache} (h : CacheInv g c) (k : Str) :
    k ∈ c.order_of_last_request ↔ StdMap.find c.last_requests k ≠ none := by
  rw [h.perm.mem_iff, Ne, StdMap.find_eq_none_iff, not_not]

theorem answer_isSome (g : Graph) (q : Str) (h : (parseQuery q).isSome = true) :
    ∃ r, answer g q = some r := by
  unfold answer
  cases hp : parseQuery q with
  | none => rw [hp] at h; simp at h
  | some vs =>
    obtain ⟨v1, v2⟩ := vs
    obtain ⟨r, hr, _⟩ := bfs_spec g v1 v2
    exact ⟨r, hr⟩

/-- The locked block, entered with a key that is not cached. -/
theorem cacheInsert_miss {g : Graph} {c : Cache} (h : CacheInv g c) {q r : Str}
    (hk : StdMap.find c.last_requests q = none) (ha : answer g q = some r) :
    ∃ c', cacheInsert c q r = Except.ok c' ∧ CacheInv g c' ∧
      c'.order_of_last_request = lastTen (c.order_of_last_request ++ [q]) := by
  have hlen := h.length_eq
  have hqo : q ∉ c.order_of_last_request := by
    rw [h.mem_order_iff]; simp [hk]
  by_cases hsz : StdMap.size c.last_requests ≥ 10
  · have hcap := h.cap
    cases ho : c.order_of_last_request with
    | nil => rw [ho] at hlen; simp at hlen; omega
    | cons oldest rest =>
      have hnd := h.nodup
      rw [ho] at hlen hnd hqo
      rw [List.nodup_cons] at hnd
      simp only [List.length_cons] at hlen
      have hk1 : StdMap.find (StdMap.erase c.last_requests oldest) q = none := by
        rw [StdMap.find_erase]; split <;> simp [hk]
      have hperm : rest.Perm (StdMap.keys (StdMap.erase c.last_requests oldest)) := by
        rw [StdMap.keys_erase]
        have hp := h.perm
        rw [ho] at hp
        have hf := hp.filter (fun x => decide (x ≠ oldest))
        have e1 : (oldest :: rest).filter (fun x => decide (x ≠ oldest)) = rest := by
          rw [List.filter_cons_of_neg (by simp)]
          rw [List.filter_eq_self]
          intro a ha
          have : a ≠ oldest := fun e => hnd.1 (e ▸ ha)
          simpa using this
        rw [e1] at hf
        exact hf
      refine ⟨{ last_requests :=
                  StdMap.insert (StdMap.erase c.last_requests oldest) q r
                order_of_last_request := rest ++ [q] }, ?_, ?_, ?_⟩
      · simp [cacheInsert, hsz, ho]
      · refine { perm := ?_, nodup := ?_, cap := ?_, sound := ?_ }
        · simp only
          rw [StdMap.keys_insert_of_find_none _ q r hk1]
          exact hperm.append_right [q]
        · simp only
          rw [List.nodup_append]
          refine ⟨hnd.2, by simp, ?_⟩
          intro a hmem hb
          simp at hb
          rw [hb] at hmem
          exact hqo (List.mem_cons_of_mem _ hmem)
        · simp only
          rw [StdMap.size_insert_of_find_none _ q r hk1, StdMap.size_eq_length_keys,
            ← hperm.length_eq]
          omega
        · intro k v hf
          simp only [StdMap.find_insert, StdMap.find_erase] at hf
          by_cases e : q = k
          · subst e
            simp at hf
            rw [← hf]; exact ha
          · rw [if_neg e] at hf
            by_cases e2 : oldest = k
            · simp [e2] at hf
            · rw [if_neg e2] at hf
              exact h.sound k v hf
      · simp only [lastTen, ho]
        have : (oldest :: rest ++ [q]).length - 10 = 1 := by
          simp
          omega
        rw [this]
        rfl
  · refine ⟨{ last_requests := StdMap.insert c.last_requests q r
              order_of_last_request := c.order_of_last_request ++ [q] }, ?_, ?_, ?_⟩
    · simp [cacheInsert, hsz]
    · refine { perm := ?_, nodup := ?_, cap := ?_, sound := ?_ }
      · simp only
        rw [StdMap.keys_insert_of_find_none _ q r hk]
        exact h.perm.append_right [q]
      · simp only
        rw [List.nodup_append]
        refine ⟨h.nodup, by simp, ?_⟩
        intro a hmem hb
        simp at hb
        rw [hb] at hmem
        exact hqo hmem
      · simp only
        rw [StdMap.size_insert_of_find_none _ q r hk]
        omega
      · intro k v hf
        simp only [StdMap.find_insert] at hf
        by_cases e : q = k
        · subst e
          simp at hf
          rw [← hf]; exact ha
        · rw [if_neg e] at hf
          exact h.sound k v hf
    · simp only [lastTen]
      have : (c.order_of_last_request ++ [q]).length - 10 = 0 := by
        simp
        omega
      rw [this]
      rfl

/-- One run of the handler on a query that parses. -/
theorem shortest_distance_spec {g : Graph} {c : Cache} (h : CacheInv g c) {q : Str}
    (hq : (parseQuery q).isSome = true) :
    ∃ r c', shortest_distance g c q = Except.ok (r, c') ∧ answer g q = some r ∧
      CacheInv g c' ∧
      (StdMap.find c.last_requests q ≠ none → c' = c) ∧
      (StdMap.find c.last_requests q = none →
        c'.order_of_last_request = lastTen (c.order_of_last_request ++ [q])) := by
  obtain ⟨r, hr⟩ := answer_isSome g q hq
  cases hp : parseQuery q with
  | none => rw [hp] at hq; simp at hq
  | some vs =>
    obtain ⟨v1, v2⟩ := vs
    have hb : bfs g v1 v2 = some r := by simpa [answer, hp] using hr
    cases hf : StdMap.find c.last_requests q with
    | some cached =>
      have hc := h.sound q cached hf
      rw [hr] at hc
      simp at hc
      subst hc
      exact ⟨r, c, by simp [shortest_distance, hp, hf], hr, h, fun _ => rfl, by simp⟩
    | none =>
      obtain ⟨c', h1, h2, h3⟩ := cacheInsert_miss h hf hr
      exact ⟨r, c', by simp [shortest_distance, hp, hf, hb, h1], hr, h2,
        fun hne => absurd rfl hne, fun _ => h3⟩

/-- The handler run on a list of queries that parse. -/
theorem serve_spec (g : Graph) : ∀ (lines : List Str) (c : Cache), CacheInv g c →
    (∀ q ∈ lines, (parseQuery q).isSome = true) →
    ∃ rs c', serve g c lines = Except.ok (rs, c') ∧ CacheInv g c' ∧
      lines.map (answer g) = rs.map some := by
  intro lines
  induction lines with
  | nil => intro c h _; exact ⟨[], c, rfl, h, rfl⟩
  | cons q rest ih =>
    intro c h hwf
    obtain ⟨r, c1, h1, h2, h3, _, _⟩ := shortest_distance_spec h (hwf q (by simp))
    obtain ⟨rs, c2, h4, h5, h6⟩ := ih c1 h3 (fun x hx => hwf x (List.mem_cons_of_mem _ hx))
    exact ⟨r :: rs, c2, by simp [serve, h1, h4], h5, by simp [h2, h6]⟩
theorem lastTen_append (a b : List Str) : lastTen (lastTen a ++ b) = lastTen (a ++ b) := by
  unfold lastTen
  by_cases h : a.length ≤ 10
  · have : a.length - 10 = 0 := by omega
    rw [this]
    rfl
  · have hk : a.length - 10 ≤ a.length := by omega
    have e1 : (List.drop (a.length - 10) a ++ b).length - 10 = b.length := by
      simp
      omega
    have e2 : (a ++ b).length - 10 = (a.length - 10) + b.length := by
      simp
      omega
    rw [e1, e2, ← List.drop_drop, List.drop_append_of_le_length hk]

theorem lastTen_length (l : List Str) (h : 10 < l.length) : (lastTen l).length = 10 := by
  unfold lastTen
  rw [List.length_drop]
  omega

theorem mem_of_mem_lastTen {l : List Str} {x : Str} (h : x ∈ lastTen l) : x ∈ l :=
  List.mem_of_mem_drop h

theorem head_not_mem_lastTen (q : Str) (rest : List Str) (hnd : (q :: rest).Nodup)
    (h : 10 < (q :: rest).length) : q ∉ lastTen (q :: rest) := by
  unfold lastTen
  have : (q :: rest).length - 10 = (rest.length - 10) + 1 := by
    simp at h ⊢
    omega
  rw [this, List.drop_succ_cons]
  intro hm
  exact (List.nodup_cons.1 hnd).1 (List.mem_of_mem_drop hm)

/-- The handler run on pairwise distinct queries, none of them cached: the eviction
queue ends up holding the last ten of everything queued. -/
theorem serve_distinct (g : Graph) : ∀ (lines : List Str) (c : Cache), CacheInv g c →
    (∀ q ∈ lines, (parseQuery q).isSome = true) → lines.Nodup →
    (∀ q ∈ lines, q ∉ c.order_of_last_request) →
    ∃ rs c', serve g c lines = Except.ok (rs, c') ∧ CacheInv g c' ∧
      c'.order_of_last_request = lastTen (c.order_of_last_request ++ lines) := by
  intro lines
  induction lines with
  | nil =>
    intro c h _ _ _
    refine ⟨[], c, rfl, h, ?_⟩
    have := h.length_eq
    have := h.cap
    simp only [lastTen, List.append_nil]
    have e : c.order_of_last_request.length - 10 = 0 := by omega
    rw [e]
    rfl
  | cons q rest ih =>
    intro c h hwf hnd hfresh
    rw [List.nodup_cons] at hnd
    obtain ⟨r, c1, h1, _, h3, _, h5⟩ := shortest_distance_spec h (hwf q (by simp))
    have hmiss : StdMap.find c.last_requests q = none := by
      by_contra hne
      exact hfresh q (by simp) ((h.mem_order_iff q).2 hne)
    have ho := h5 hmiss
    have hfresh1 : ∀ x ∈ rest, x ∉ c1.order_of_last_request := by
      intro x hx hm
      rw [ho] at hm
      rcases List.mem_append.1 (mem_of_mem_lastTen hm) with hm | hm
      · exact hfresh x (List.mem_cons_of_mem _ hx) hm
      · simp at hm
        rw [hm] at hx
        exact hnd.1 hx
    obtain ⟨rs, c2, h6, h7, h8⟩ :=
      ih c1 h3 (fun x hx => hwf x (List.mem_cons_of_mem _ hx)) hnd.2 hfresh1
    refine ⟨r :: rs, c2, by simp [serve, h1, h6], h7, ?_⟩
    rw [h8, ho, lastTen_append]
    simp

theorem occurrences_eq_one (k : Str) : ∀ (l : List Str), l.Nodup → k ∈ l →
    occurrences k l = 1 := by
  intro l
  induction l with
  | nil => intro _ h; simp at h
  | cons a t ih =>
    intro hnd hk
    rw [List.nodup_cons] at hnd
    unfold occurrences at ih ⊢
    by_cases e : a = k
    · subst e
      have : t.filter (fun x => decide (x = a)) = [] := by
        rw [List.filter_eq_nil_iff]
        intro x hx
        have : x ≠ a := fun e => hnd.1 (e ▸ hx)
        simpa using this
      simp [List.filter_cons, this]
    · have hk' : k ∈ t := by
        rcases List.mem_cons.1 hk with h | h
        · exact absurd h.symm e
        · exact h
      simp [List.filter_cons, e, ih hnd.2 hk']
/-! ## Adjacency lists built by `setGraphPath` -/

theorem neighbors_eq_getD (g : Graph) (x : Int) : neighbors g x = StdMap.getD g x [] := by
  unfold neighbors StdMap.getD
  cases StdMap.find g x <;> rfl

theorem neighbors_pushBack (g : Graph) (a b x : Int) :
    neighbors (pushBack g a b) x =
      if a = x then neighbors g x ++ [b] else neighbors g x := by
  rw [neighbors_eq_getD, neighbors_eq_getD]
  unfold pushBack
  rw [StdMap.getD_insert]
  split
  · rename_i h; rw [h]
  · rfl

theorem count_neighbors_pushBack (g : Graph) (a b x y : Int) :
    (neighbors (pushBack g a b) x).count y =
      (neighbors g x).count y + (if a = x ∧ b = y then 1 else 0) := by
  rw [neighbors_pushBack]
  by_cases h1 : a = x
  · rw [if_pos h1, List.count_append]
    by_cases h2 : b = y
    · subst h2
      simp [h1]
    · have : List.count y [b] = 0 := by
        rw [List.count_eq_zero]
        simpa using fun e => h2 e.symm
      simp [h1, h2, this]
  · simp [h1]

/-- One pair `(u, v)` read by `setGraphPath` adds `v` to the list of `u` and `u` to the
list of `v`. -/
theorem count_neighbors_step (g : Graph) (u v x y : Int) :
    (neighbors (pushBack (pushBack g u v) v u) x).count y =
      (neighbors g x).count y + (if u = x ∧ v = y then 1 else 0) +
        (if v = x ∧ u = y then 1 else 0) := by
  rw [count_neighbors_pushBack, count_neighbors_pushBack]

theorem count_neighbors_symm_from (edges : List (Int × Int)) :
    ∀ g : Graph, (∀ x y, (neighbors g x).count y = (neighbors g y).count x) →
      ∀ x y, (neighbors (setGraphPathFrom g edges) x).count y =
        (neighbors (setGraphPathFrom g edges) y).count x := by
  induction edges with
  | nil => intro g h; exact h
  | cons e rest ih =>
    obtain ⟨u, v⟩ := e
    intro g h
    apply ih
    intro x y
    rw [count_neighbors_step, count_neighbors_step, h x y]
    have e1 : (if u = x ∧ v = y then 1 else 0) = (if v = y ∧ u = x then 1 else 0) := by
      by_cases a : u = x <;> by_cases b : v = y <;> simp [a, b]
    have e2 : (if v = x ∧ u = y then 1 else 0) = (if u = y ∧ v = x then 1 else 0) := by
      by_cases a : v = x <;> by_cases b : u = y <;> simp [a, b]
    rw [e1, e2]
    omega
/-! ## `stoi` on decimal renderings -/

theorem isspace_of_isDigit (c : Char) (h : c.isDigit = true) : isspace c = false := by
  unfold isspace
  simp only [Bool.or_eq_false_iff, decide_eq_false_iff_not]
  refine ⟨⟨⟨⟨⟨?_, ?_⟩, ?_⟩, ?_⟩, ?_⟩, ?_⟩ <;>
    (intro e; subst e; exact absurd h (by decide))

theorem isDigit_ne_plus (c : Char) (h : c.isDigit = true) : c ≠ '+' := by
  intro e; subst e; exact absurd h (by decide)

theorem takeWhile_append_of_all (p : Char → Bool) (t rest : List Char)
    (ht : ∀ c ∈ t, p c = true) (hr : ∀ c, rest.head? = some c → p c = false) :
    (t ++ rest).takeWhile p = t := by
  induction t with
  | nil =>
    cases rest with
    | nil => rfl
    | cons c r => simp [List.takeWhile, hr c rfl]
  | cons a t ih =>
    have ha : p a = true := ht a (by simp)
    have := ih (fun c hc => ht c (List.mem_cons_of_mem _ hc))
    rw [List.cons_append, List.takeWhile_cons, ha, this]
    rfl

/-- The call `stoi` on a string that starts with digits. -/
theorem stoi_digits (ds rest : List Char) (hne : ds ≠ [])
    (hd : ∀ c ∈ ds, c.isDigit = true) (hr : ∀ c, rest.head? = some c → c.isDigit = false) :
    stoi (ds ++ rest) =
      if digitsValue ds ≤ 2147483647 then some (digitsValue ds : Int) else none := by
  obtain ⟨c, t, e⟩ := List.exists_cons_of_ne_nil hne
  have hc : c.isDigit = true := hd c (by simp [e])
  have hsp : isspace c = false := isspace_of_isDigit c hc
  have hm : c ≠ '-' := isDigit_ne_minus c hc
  have hp : c ≠ '+' := isDigit_ne_plus c hc
  have htw : (ds ++ rest).takeWhile Char.isDigit = ds := takeWhile_append_of_all _ ds rest hd hr
  have hdw : (ds ++ rest).dropWhile isspace = ds ++ rest := by
    rw [e]
    simp [List.dropWhile, hsp]
  have hh : (ds ++ rest).head? = some c := by rw [e]; rfl
  unfold stoi
  simp only [hdw, hh, Option.some.injEq, hm, hp, or_self, if_false, htw, hne, decide_False]
  by_cases hv : digitsValue ds ≤ 2147483647
  · have : (-2147483648 : Int) ≤ (digitsValue ds : Int) ∧ (digitsValue ds : Int) ≤ 2147483647 := by
      constructor <;> omega
    simp [hv, this]
  · have : ¬ ((-2147483648 : Int) ≤ (digitsValue ds : Int) ∧
        (digitsValue ds : Int) ≤ 2147483647) := by
      intro h; omega
    simp [hv, this]

/-- The call `stoi` on a string that starts with a minus sign and digits. -/
theorem stoi_minus_digits (ds rest : List Char) (hne : ds ≠ [])
    (hd : ∀ c ∈ ds, c.isDigit = true) (hr : ∀ c, rest.head? = some c → c.isDigit = false) :
    stoi ('-' :: ds ++ rest) =
      if digitsValue ds ≤ 2147483648 then some (-(digitsValue ds : Int)) else none := by
  have htw : (ds ++ rest).takeWhile Char.isDigit = ds := takeWhile_append_of_all _ ds rest hd hr
  have hdw : ('-' :: ds ++ rest).dropWhile isspace = '-' :: ds ++ rest := by
    have : isspace '-' = false := by decide
    simp [List.dropWhile, this]
  unfold stoi
  simp only [hdw]
  simp only [List.cons_append, List.head?_cons, true_or, if_true, List.tail_cons, htw, hne,
    if_false, decide_True]
  by_cases hv : digitsValue ds ≤ 2147483648
  · have : (-2147483648 : Int) ≤ -(digitsValue ds : Int) ∧ -(digitsValue ds : Int) ≤ 2147483647 := by
      constructor <;> omega
    simp [hv, this]
  · have : ¬ ((-2147483648 : Int) ≤ -(digitsValue ds : Int) ∧
        -(digitsValue ds : Int) ≤ 2147483647) := by
      intro h; omega
    simp [hv, this]
theorem readNat_eq_some {s : Str} {m : Nat} (h : readNat s = some m) :
    s ≠ [] ∧ (∀ c ∈ s, c.isDigit = true) ∧ digitsValue s = m := by
  unfold readNat at h
  split at h
  · rename_i hc
    simp only [Option.some.injEq] at h
    exact ⟨hc.1, List.all_eq_true.1 hc.2, h⟩
  · simp at h

/-- On a string that begins with a decimal integer in the range of `int`, `stoi` reads
that integer. -/
theorem stoi_of_readDecimal (pre rest : Str) (n : Int) (hpre : readDecimal pre = some n)
    (hrest : ∀ c, rest.head? = some c → c.isDigit = false) (hn : IsInt32 n) :
    stoi (pre ++ rest) = some n := by
  cases pre with
  | nil => simp [readDecimal, readNat] at hpre
  | cons c t =>
    by_cases hc : c = '-'
    · subst hc
      cases hm : readNat t with
      | none => simp [readDecimal, hm] at hpre
      | some m =>
        simp [readDecimal, hm] at hpre
        obtain ⟨h1, h2, h3⟩ := readNat_eq_some hm
        rw [stoi_minus_digits t rest h1 h2 hrest, h3]
        have : m ≤ 2147483648 := by
          have := hn.1
          omega
        rw [if_pos this, hpre]
    · have hrd : readDecimal (c :: t) = (readNat (c :: t)).map (fun (k : Nat) => (k : Int)) := by
        unfold readDecimal
        split
        · rename_i heq
          simp at heq
          exact absurd heq.1 hc
        · cases readNat (c :: t) <;> rfl
      rw [hrd] at hpre
      cases hm : readNat (c :: t) with
      | none => simp [hm] at hpre
      | some m =>
        simp [hm] at hpre
        obtain ⟨h1, h2, h3⟩ := readNat_eq_some hm
        rw [stoi_digits (c :: t) rest h1 h2 hrest, h3]
        have : m ≤ 2147483647 := by
          have := hn.2
          omega
        rw [if_pos this, hpre]

theorem stoi_to_string (v : Int) (hv : IsInt32 v) : stoi (to_string v) = some v := by
  have := stoi_of_readDecimal (to_string v) [] v (readDecimal_to_string v) (by simp) hv
  simpa using this

theorem to_string_length_le (v : Int) (hv : IsInt32 v) : (to_string v).length ≤ 11 := by
  obtain ⟨h1, h2⟩ := hv
  cases v with
  | ofNat n =>
    have hn : n < 10 ^ 10 := by
      have : (n : Int) ≤ 2147483647 := h2
      omega
    have := Nat.toDigitsCore_length 10 (by decide) (n + 1) n 10 hn (by decide)
    simp only [to_string, Nat.toDigits]
    omega
  | negSucc n =>
    have hn : n + 1 < 10 ^ 10 := by
      have : (Int.negSucc n) = -((n : Int) + 1) := Int.negSucc_eq n
      rw [this] at h1
      omega
    have := Nat.toDigitsCore_length 10 (by decide) (n + 1 + 1) (n + 1) 10 hn (by decide)
    simp only [to_string, Nat.toDigits, List.length_cons]
    omega

theorem findSpace_append (a b : Str) (ha : ' ' ∉ a) :
    findSpace (a ++ ' ' :: b) = some a.length := by
  unfold findSpace
  rw [if_pos (by simp), List.indexOf_append_of_not_mem ha]
  simp

theorem findSpace_of_not_mem (line : Str) (h : ' ' ∉ line) : findSpace line = none := by
  unfold findSpace
  rw [if_neg h]

/-- The handler's parsing of what the client sends for two values of type `int`. -/
theorem parseQuery_message (v1 v2 : Int) (h1 : IsInt32 v1) (h2 : IsInt32 v2) :
    parseQuery (message_to_send v1 v2) = some (v1, v2) := by
  unfold parseQuery message_to_send
  rw [findSpace_append _ _ (to_string_no_space v1)]
  have ht : List.take (to_string v1).length (to_string v1 ++ ' ' :: to_string v2) =
      to_string v1 := List.take_left' rfl
  have hd : List.drop (to_string v1).length (to_string v1 ++ ' ' :: to_string v2) =
      ' ' :: to_string v2 := List.drop_left' rfl
  have hd2 : List.drop ((to_string v1).length + 1) (to_string v1 ++ ' ' :: to_string v2) =
      to_string v2 := by
    rw [← List.drop_drop, hd]
    rfl
  simp only [ht, hd2, stoi_to_string v1 h1, stoi_to_string v2 h2]

/-- The handler's parsing of a line without a space: both substrings are the line. -/
theorem parseQuery_no_space (line : Str) (h : ' ' ∉ line) (n : Int)
    (hs : stoi line = some n) : parseQuery line = some (n, n) := by
  unfold parseQuery
  rw [findSpace_of_not_mem line h]
  simp [hs]

theorem bfs_self (g : Graph) (v : Int) : bfs g v v = some (to_string v) := by
  simp [bfs, bfsFuel, bfsLoop, bfsInit, pathLoop, StdMap.size, StdMap.find]
/-! ## The cache under arbitrary inserts -/

theorem StdMap.mem_keys_insert {K V : Type} [DecidableEq K] (m : StdMap K V) (k x : K) (v : V) :
    x ∈ StdMap.keys (StdMap.insert m k v) ↔ x = k ∨ x ∈ StdMap.keys m := by
  rw [← StdMap.find_isSome_iff, ← StdMap.find_isSome_iff, StdMap.find_insert]
  by_cases h : k = x
  · simp [h]
  · have : ¬ x = k := fun e => h e.symm
    simp [h, this]

theorem StdMap.mem_keys_erase {K V : Type} [DecidableEq K] (m : StdMap K V) (k x : K) :
    x ∈ StdMap.keys (StdMap.erase m k) ↔ x ≠ k ∧ x ∈ StdMap.keys m := by
  rw [StdMap.keys_erase, List.mem_filter]
  simp [and_comm]

theorem StdMap.keys_ne_nil_of_size_pos {K V : Type} (m : StdMap K V) (h : 0 < StdMap.size m) :
    ∃ k, k ∈ StdMap.keys m := by
  cases m with
  | nil => simp [StdMap.size] at h
  | cons e t => exact ⟨e.1, by simp [StdMap.keys]⟩

/-- The locked block never finds the queue empty when it evicts, and keeps every key
of `last_requests` in the queue. -/
theorem cacheInsert_keys_queued (c : Cache) (k v : Str)
    (h : ∀ x ∈ StdMap.keys c.last_requests, x ∈ c.order_of_last_request) :
    ∃ c', cacheInsert c k v = Except.ok c' ∧
      ∀ x ∈ StdMap.keys c'.last_requests, x ∈ c'.order_of_last_request := by
  by_cases hsz : StdMap.size c.last_requests ≥ 10
  · cases ho : c.order_of_last_request with
    | nil =>
      obtain ⟨x, hx⟩ := StdMap.keys_ne_nil_of_size_pos c.last_requests (by omega)
      have := h x hx
      rw [ho] at this
      simp at this
    | cons oldest rest =>
      refine ⟨{ last_requests :=
                  StdMap.insert (StdMap.erase c.last_requests oldest) k v
                order_of_last_request := rest ++ [k] }, by simp [cacheInsert, hsz, ho], ?_⟩
      intro x hx
      simp only [StdMap.mem_keys_insert, StdMap.mem_keys_erase] at hx
      simp only [List.mem_append, List.mem_singleton]
      rcases hx with hx | ⟨hne, hx⟩
      · exact Or.inr hx
      · have := h x hx
        rw [ho] at this
        rcases List.mem_cons.1 this with e | hm
        · exact absurd e hne
        · exact Or.inl hm
  · refine ⟨{ last_requests := StdMap.insert c.last_requests k v
              order_of_last_request := c.order_of_last_request ++ [k] },
      by simp [cacheInsert, hsz], ?_⟩
    intro x hx
    simp only [StdMap.mem_keys_insert] at hx
    simp only [List.mem_append, List.mem_singleton]
    rcases hx with hx | hx
    · exact Or.inr hx
    · exact Or.inl (h x hx)

theorem cacheInserts_keys_queued : ∀ (kvs : List (Str × Str)) (c : Cache),
    (∀ x ∈ StdMap.keys c.last_requests, x ∈ c.order_of_last_request) →
    ∃ c', cacheInserts c kvs = Except.ok c' ∧
      ∀ x ∈ StdMap.keys c'.last_requests, x ∈ c'.order_of_last_request := by
  intro kvs
  induction kvs with
  | nil => intro c h; exact ⟨c, rfl, h⟩
  | cons kv rest ih =>
    obtain ⟨k, v⟩ := kv
    intro c h
    obtain ⟨c1, h1, h2⟩ := cacheInsert_keys_queued c k v h
    obtain ⟨c2, h3, h4⟩ := ih c1 h2
    exact ⟨c2, by simp [cacheInserts, h1, h3], h4⟩
/-! ## Length of the responses -/

/-- The recorded loop computes what `bfsLoop` computes. -/
theorem bfsLoop_eq_bfsTrace (g : Graph) (d : Int) :
    ∀ (fuel : Nat) (st : BfsState) (popped : List Int),
      bfsLoop g d fuel st = (bfsTrace g d fuel st popped).bind (bfsFinish d) := by
  intro fuel
  induction fuel with
  | zero => intro st popped; rfl
  | succ fuel ih =>
    intro st popped
    cases hq : st.q with
    | nil => simp [bfsLoop, bfsTrace, hq, bfsFinish]
    | cons cur rest =>
      by_cases hcd : cur = d
      · simp [bfsLoop, bfsTrace, hq, hcd, bfsFinish]
      · simp only [bfsLoop, bfsTrace, hq, if_neg hcd]
        exact ih _ _

theorem visitNeighbor_mono (cur : Int) (st : BfsState) (n : Int) :
    (∀ v, visOf st v = true → visOf (visitNeighbor cur st n) v = true) ∧
      (∀ x ∈ (visitNeighbor cur st n).q, x ∈ st.q ∨ visOf st x = false) := by
  cases hv : visOf st n with
  | true =>
    obtain ⟨e, ev⟩ := visOf_visitNeighbor_seen cur st n hv
    rw [ev]
    refine ⟨fun v h => h, ?_⟩
    rw [e]
    intro x hx
    exact Or.inl hx
  | false =>
    obtain ⟨e, ev⟩ := visOf_visitNeighbor_new cur st n hv
    refine ⟨?_, ?_⟩
    · intro v h
      rw [ev]
      simp [h]
    · rw [e]
      intro x hx
      simp only [List.mem_append, List.mem_singleton] at hx
      rcases hx with hx | hx
      · exact Or.inl hx
      · right; rw [hx]; exact hv

/-- The `for` loop only sets visited flags, and only pushes vertices whose flag was
not set. -/
theorem visitNeighbors_mono (cur : Int) : ∀ (todo : List Int) (st : BfsState),
    (∀ v, visOf st v = true → visOf (visitNeighbors cur st todo) v = true) ∧
      (∀ x ∈ (visitNeighbors cur st todo).q, x ∈ st.q ∨ visOf st x = false) := by
  intro todo
  induction todo with
  | nil => intro st; exact ⟨fun v h => h, fun x hx => Or.inl hx⟩
  | cons n todo ih =>
    intro st
    have hfold : visitNeighbors cur st (n :: todo) =
        visitNeighbors cur (visitNeighbor cur st n) todo := rfl
    rw [hfold]
    obtain ⟨m1, q1⟩ := visitNeighbor_mono cur st n
    obtain ⟨m2, q2⟩ := ih (visitNeighbor cur st n)
    refine ⟨fun v h => m2 v (m1 v h), ?_⟩
    intro x hx
    rcases q2 x hx with h | h
    · exact q1 x h
    · right
      cases hvx : visOf st x with
      | false => rfl
      | true => rw [m1 x hvx] at h; exact absurd h (by simp)

/-- The parent walk from any vertex ends within its fuel. -/
theorem pathLoop_total {g : Graph} {s d : Int} {vis : Int → Bool} {par : StdMap Int Int}
    {Q done : List Int} {P : Int → List Int} (h : Inv g s d vis par Q done P) :
    ∀ (v : Int) (path : Str), ∃ r, pathLoop par (StdMap.size par + 1) v path = some r := by
  have key : ∀ (fuel : Nat) (v : Int) (path : Str), vis v = true → (P v).length ≤ fuel →
      ∃ r, pathLoop par fuel v path = some r := by
    intro fuel
    induction fuel with
    | zero =>
      intro v path hv hl
      have := (h.walk v hv).length_pos
      omega
    | succ fuel ih =>
      intro v path hv hl
      by_cases hvs : v = s
      · subst hvs
        exact ⟨path, by simp [pathLoop, h.s_par]⟩
      · obtain ⟨p, h1, h2, _, h4, _⟩ := h.par_spec v hv hvs
        have hlp : (P p).length ≤ fuel := by
          rw [h4] at hl
          simp at hl
          omega
        obtain ⟨r, hr⟩ := ih p (to_string p ++ ' ' :: path) h2 hlp
        exact ⟨r, by simp only [pathLoop, h1]; exact hr⟩
  intro v path
  cases hv : vis v with
  | true => exact key _ v path hv (h.len_le v hv)
  | false =>
    have hf : StdMap.find par v = none := by
      cases hf : StdMap.find par v with
      | none => rfl
      | some p => rw [h.par_keys v p hf] at hv; exact absurd hv (by simp)
    exact ⟨path, by simp [pathLoop, hf]⟩

/-- The recorded loop ends within its fuel; no vertex is recorded or queued twice, and
the invariant holds where the loop is left. -/
theorem bfsTrace_spec (g : Graph) (s d : Int) :
    ∀ (fuel : Nat) (st : BfsState) (P : Int → List Int) (popped : List Int),
      Inv g s d (visOf st) st.vertex_parents st.q [] P →
      st.q.length + unvisited (visOf st) (allNeighbors g) < fuel →
      popped.Nodup → (∀ x ∈ popped, visOf st x = true ∧ x ∉ st.q) →
      ∃ e, bfsTrace g d fuel st popped = some e ∧ (e.popped ++ e.st.q).Nodup ∧
        (e.found = true → visOf e.st d = true) ∧
        ∃ Q P', Inv g s d (visOf e.st) e.st.vertex_parents Q [] P' := by
  intro fuel
  induction fuel with
  | zero => intro st P popped _ hm; omega
  | succ fuel ih =>
    intro st P popped h hm hnd hpop
    cases hq : st.q with
    | nil =>
      refine ⟨{ found := false, popped := popped, st := st }, by simp [bfsTrace, hq], ?_,
        by simp, st.q, P, h⟩
      simp [hq, hnd]
    | cons cur rest =>
      rw [hq] at h hm hpop
      have hqn := h.q_nodup
      rw [List.nodup_cons] at hqn
      have hcv := h.q_vis cur (by simp)
      have hnd1 : (popped ++ [cur]).Nodup := by
        rw [List.nodup_append]
        refine ⟨hnd, by simp, ?_⟩
        intro a ha hb
        simp at hb
        rw [hb] at ha
        exact (hpop cur ha).2 (by simp)
      by_cases hcd : cur = d
      · refine ⟨{ found := true, popped := popped ++ [cur], st := { st with q := rest } },
          by simp [bfsTrace, hq, hcd], ?_, ?_, cur :: rest, P, h⟩
        · simp only [List.append_assoc, List.singleton_append]
          rw [List.nodup_append]
          refine ⟨hnd, h.q_nodup, ?_⟩
          intro a ha hb
          exact (hpop a ha).2 hb
        · intro _
          rw [← hcd]
          exact hcv
      · obtain ⟨P', hI, hle⟩ := visitNeighbors_inv g s d cur (neighbors g cur) []
          { st with q := rest } P (by simp) h
        obtain ⟨mono, newq⟩ := visitNeighbors_mono cur (neighbors g cur) { st with q := rest }
        have hI' := hI.pop hcd
        simp only [List.length_cons] at hm
        have e : visOf { st with q := rest } = visOf st := rfl
        rw [e] at hle mono newq
        simp only at hle newq
        have hpop1 : ∀ x ∈ popped ++ [cur],
            visOf (visitNeighbors cur { st with q := rest } (neighbors g cur)) x = true ∧
              x ∉ (visitNeighbors cur { st with q := rest } (neighbors g cur)).q := by
          intro x hx
          have hx' : visOf st x = true ∧ x ∉ rest := by
            rcases List.mem_append.1 hx with hx | hx
            · exact ⟨(hpop x hx).1, fun hm => (hpop x hx).2 (List.mem_cons_of_mem _ hm)⟩
            · simp at hx
              rw [hx]
              exact ⟨hcv, hqn.1⟩
          refine ⟨mono x hx'.1, ?_⟩
          intro hm
          rcases newq x hm with h1 | h1
          · exact hx'.2 h1
          · rw [hx'.1] at h1; exact absurd h1 (by simp)
        obtain ⟨ex, h1, h2, h3, h4⟩ := ih _ P' (popped ++ [cur]) hI' (by omega) hnd1 hpop1
        exact ⟨ex, by simp only [bfsTrace, hq, if_neg hcd]; exact h1, h2, h3, h4⟩
/-! ## Keys of the caches the handler builds -/

/-- A cached line that parses is answered from the cache, which is left as it is. -/
theorem shortest_distance_hit (g : Graph) (c : Cache) (line v : Str)
    (hk : StdMap.find c.last_requests line = some v)
    (hp : (parseQuery line).isSome = true) :
    shortest_distance g c line = Except.ok (v, c) := by
  cases h : parseQuery line with
  | none => rw [h] at hp; simp at hp
  | some vs =>
    obtain ⟨v1, v2⟩ := vs
    simp [shortest_distance, h, hk]

/-- The locked block adds no key but the line it is given. -/
theorem cacheInsert_keys_subset (c c' : Cache) (line result : Str)
    (h : cacheInsert c line result = Except.ok c') :
    ∀ k ∈ StdMap.keys c'.last_requests, k = line ∨ k ∈ StdMap.keys c.last_requests := by
  unfold cacheInsert at h
  split at h
  · split at h
    · simp at h
    · simp only [Except.ok.injEq] at h
      intro k hk
      rw [← h] at hk
      simp only [StdMap.mem_keys_insert, StdMap.mem_keys_erase] at hk
      rcases hk with hk | hk
      · exact Or.inl hk
      · exact Or.inr hk.2
  · simp only [Except.ok.injEq] at h
    intro k hk
    rw [← h] at hk
    simp only [StdMap.mem_keys_insert] at hk
    exact hk

/-- The handler only stores lines on which both `stoi` calls have succeeded. -/
theorem shortest_distance_keys_parse (g : Graph) (c c' : Cache) (line r : Str)
    (hc : ∀ k ∈ StdMap.keys c.last_requests, (parseQuery k).isSome = true)
    (h : shortest_distance g c line = Except.ok (r, c')) :
    ∀ k ∈ StdMap.keys c'.last_requests, (parseQuery k).isSome = true := by
  unfold shortest_distance at h
  cases hp : parseQuery line with
  | none => simp [hp] at h
  | some vs =>
    obtain ⟨v1, v2⟩ := vs
    simp only [hp] at h
    cases hf : StdMap.find c.last_requests line with
    | some cached =>
      simp only [hf, Except.ok.injEq, Prod.mk.injEq] at h
      rw [← h.2]
      exact hc
    | none =>
      simp only [hf] at h
      cases hb : bfs g v1 v2 with
      | none => simp [hb] at h
      | some result =>
        simp only [hb] at h
        cases hi : cacheInsert c line result with
        | error e => simp [hi] at h
        | ok c1 =>
          simp only [hi, Except.ok.injEq, Prod.mk.injEq] at h
          intro k hk
          rw [← h.2] at hk
          rcases cacheInsert_keys_subset c c1 line result hi k hk with e | hk'
          · rw [e, hp]; rfl
          · exact hc k hk'

/-- Every key of a cache built by the handler is a line that parses. -/
theorem serve_keys_parse (g : Graph) : ∀ (lines : List Str) (c : Cache) (rs : List Str)
    (c' : Cache), (∀ k ∈ StdMap.keys c.last_requests, (parseQuery k).isSome = true) →
    serve g c lines = Except.ok (rs, c') →
    ∀ k ∈ StdMap.keys c'.last_requests, (parseQuery k).isSome = true := by
  intro lines
  induction lines with
  | nil =>
    intro c rs c' hc h
    simp only [serve, Except.ok.injEq, Prod.mk.injEq] at h
    rw [← h.2]
    exact hc
  | cons line rest ih =>
    intro c rs c' hc h
    unfold serve at h
    cases h1 : shortest_distance g c line with
    | error e => simp [h1] at h
    | ok rc =>
      obtain ⟨r, c1⟩ := rc
      simp only [h1] at h
      cases h2 : serve g c1 rest with
      | error e => simp [h2] at h
      | ok rc2 =>
        obtain ⟨rs2, c2⟩ := rc2
        simp only [h2, Except.ok.injEq, Prod.mk.injEq] at h
        rw [← h.2]
        exact ih c1 rs2 c2 (shortest_distance_keys_parse g c c1 line r hc h1) h2
/-! ## Claims on `Graph::bfs` -/

/-- C1: on a graph loaded by `setGraphPath`, for any `(src, dst)`, `Graph::bfs`
returns, and what it returns is either the sentinel or a string that decodes
(split at the spaces, each piece read in decimal) to a list of vertices that starts
with `src`, ends with `dst`, and in which each vertex is followed by one of its
neighbors. -/
theorem C1_bfs_sentinel_or_path (edges : List (Int × Int)) (src dst : Int) :
    ∃ r, bfs (setGraphPath edges) src dst = some r ∧
      (r = noPath ∨
        ∃ p, decodePath r = some p ∧ p.head? = some src ∧ p.getLast? = some dst ∧
          p.Chain' (fun a b => b ∈ neighbors (setGraphPath edges) a)) := by
  obtain ⟨r, hb, hpost⟩ := bfs_spec (setGraphPath edges) src dst
  refine ⟨r, hb, ?_⟩
  rcases hpost with ⟨e, _⟩ | ⟨p, hrp, hw, _, _⟩
  · exact Or.inl e
  · right
    obtain ⟨a, t, e⟩ := List.exists_cons_of_ne_nil hw.ne_nil
    refine ⟨p, ?_, hw.isPath⟩
    rw [hrp, e]
    exact decodePath_renderPath a t

/-- The first scenario of the specification: graph `1 2, 2 3, 3 4`, query `1 4`,
answered `1 2 3 4`. -/
theorem C1_bfs_sentinel_or_path_witness :
    bfs (setGraphPath [(1, 2), (2, 3), (3, 4)]) 1 4 = some "1 2 3 4".toList ∧
    decodePath "1 2 3 4".toList = some [1, 2, 3, 4] ∧
    ∃ r, bfs (setGraphPath [(1, 2), (2, 3), (3, 4)]) 1 4 = some r ∧
      (r = noPath ∨
        ∃ p, decodePath r = some p ∧ p.head? = some 1 ∧ p.getLast? = some 4 ∧
          p.Chain' (fun a b => b ∈ neighbors (setGraphPath [(1, 2), (2, 3), (3, 4)]) a)) :=
  ⟨by decide, by decide, C1_bfs_sentinel_or_path [(1, 2), (2, 3), (3, 4)] 1 4⟩

/-- C2: on a loaded graph, when some path from `src` to `dst` exists, the answer of
`Graph::bfs` decodes to a path from `src` to `dst` whose number of edges (vertices
minus one) is at most that of every path from `src` to `dst`, so it equals the
minimum. -/
theorem C2_bfs_path_is_shortest (edges : List (Int × Int)) (src dst : Int)
    (h : Reachable (setGraphPath edges) src dst) :
    ∃ r p, bfs (setGraphPath edges) src dst = some r ∧ decodePath r = some p ∧
      IsPath (setGraphPath edges) src dst p ∧
      ∀ W, IsPath (setGraphPath edges) src dst W → p.length - 1 ≤ W.length - 1 := by
  obtain ⟨p, hb, hdec, hshort, _⟩ := bfs_path (setGraphPath edges) src dst h
  refine ⟨renderPath p, p, hb, hdec, hshort.1, ?_⟩
  intro W hW
  have := hshort.2 W hW
  omega

/-- The second scenario of the specification: graph `1 2, 2 3, 3 4`, query `4 1`. -/
theorem C2_bfs_path_is_shortest_witness :
    Reachable (setGraphPath [(1, 2), (2, 3), (3, 4)]) 4 1 ∧
    ∃ r p, bfs (setGraphPath [(1, 2), (2, 3), (3, 4)]) 4 1 = some r ∧
      decodePath r = some p ∧
      IsPath (setGraphPath [(1, 2), (2, 3), (3, 4)]) 4 1 p ∧
      ∀ W, IsPath (setGraphPath [(1, 2), (2, 3), (3, 4)]) 4 1 W →
        p.length - 1 ≤ W.length - 1 :=
  ⟨⟨[4, 3, 2, 1], rfl, rfl, by simp only [List.chain'_cons, List.chain'_singleton]; decide⟩,
    C2_bfs_path_is_shortest [(1, 2), (2, 3), (3, 4)] 4 1
      ⟨[4, 3, 2, 1], rfl, rfl, by simp only [List.chain'_cons, List.chain'_singleton]; decide⟩⟩

/-- C3: on a loaded graph, `Graph::bfs` returns the sentinel exactly when `dst`
cannot be reached from `src`, that is `src ≠ dst` and no path leads from `src` to
`dst`; in particular it does so when `src` has no adjacency list and `src ≠ dst`. -/
theorem C3_bfs_sentinel_iff_unreachable (edges : List (Int × Int)) (src dst : Int) :
    (bfs (setGraphPath edges) src dst = some noPath ↔
      (src ≠ dst ∧ ¬ ∃ p, IsPath (setGraphPath edges) src dst p)) ∧
    (StdMap.find (setGraphPath edges) src = none ∧ src ≠ dst →
      bfs (setGraphPath edges) src dst = some noPath) := by
  have key := bfs_eq_noPath_iff (setGraphPath edges) src dst
  refine ⟨?_, ?_⟩
  · rw [key]
    constructor
    · intro hr
      refine ⟨?_, hr⟩
      intro e
      subst e
      exact hr (reachable_self _ src)
    · intro h
      exact h.2
  · intro ⟨hf, hne⟩
    rw [key]
    intro ⟨p, hp⟩
    exact hne (hp.eq_of_neighbors_nil (by simp [neighbors, hf]))

/-- The fourth scenario of the specification: graph `1 2, 3 4`, query `1 4`, answered
with the sentinel; and the query `7 4`, whose source is not in the graph. -/
theorem C3_bfs_sentinel_iff_unreachable_witness :
    bfs (setGraphPath [(1, 2), (3, 4)]) 1 4 = some noPath ∧
    bfs (setGraphPath [(1, 2), (3, 4)]) 7 4 = some noPath ∧
    (StdMap.find (setGraphPath [(1, 2), (3, 4)]) 7 = none ∧ (7 : Int) ≠ 4) :=
  ⟨by decide,
    (C3_bfs_sentinel_iff_unreachable [(1, 2), (3, 4)] 7 4).2 ⟨by decide, by decide⟩,
    by decide, by decide⟩

/-- C4: on a loaded graph, the empty one included, and for any integer `v`, in the
graph or not, `Graph::bfs(v, v)` returns exactly the decimal rendering of `v`, which
has no space in it. -/
theorem C4_bfs_same_vertex (edges : List (Int × Int)) (v : Int) :
    bfs (setGraphPath edges) v v = some (to_string v) ∧ ' ' ∉ to_string v := by
  refine ⟨?_, to_string_no_space v⟩
  simp [bfs, bfsFuel, bfsLoop, bfsInit, pathLoop, StdMap.size, StdMap.find]

/-- The third scenario of the specification: graph `1 2, 2 3, 3 4`, query `2 2`,
answered `2`; and the query `-7 -7` on the empty graph. -/
theorem C4_bfs_same_vertex_witness :
    bfs (setGraphPath [(1, 2), (2, 3), (3, 4)]) 2 2 = some "2".toList ∧
    bfs (setGraphPath []) (-7) (-7) = some "-7".toList ∧
    to_string (-7) = "-7".toList :=
  ⟨by decide, (C4_bfs_same_vertex [] (-7)).1.trans (by decide), by decide⟩

/-- C5, read word for word, fails: with the edges `1 1` and `1 2` the adjacency list
of `1` is `1, 1, 2`; the answer to `(1, 2)` is `1 2`, a shortest path on which the
neighbor `1` of `1` lies, and `1` comes before `2` in the list. -/
theorem C5_tie_break_counterexample :
    (1 : Int) ≠ 2 ∧ Reachable (setGraphPath [(1, 1), (1, 2)]) 1 2 ∧
    neighbors (setGraphPath [(1, 1), (1, 2)]) 1 = [1, 1, 2] ∧
    bfs (setGraphPath [(1, 1), (1, 2)]) 1 2 = some "1 2".toList ∧
    ¬ TieBreakLiteral (setGraphPath [(1, 1), (1, 2)]) 1 2 := by
  refine ⟨by decide,
    ⟨[1, 2], rfl, rfl, by simp only [List.chain'_cons, List.chain'_singleton]; decide⟩,
    by decide, by decide, ?_⟩
  intro ⟨r, p, b, hb, hdec, hsec, _, hmin⟩
  have hr : bfs (setGraphPath [(1, 1), (1, 2)]) 1 2 = some "1 2".toList := by decide
  rw [hr] at hb
  simp only [Option.some.injEq] at hb
  subst hb
  have hd : decodePath "1 2".toList = some [1, 2] := by decide
  rw [hd] at hdec
  simp only [Option.some.injEq] at hdec
  subst hdec
  simp at hsec
  subst hsec
  have hpath : IsPath (setGraphPath [(1, 1), (1, 2)]) 1 2 [1, 2] :=
    ⟨rfl, rfl, by simp only [List.chain'_cons, List.chain'_singleton]; decide⟩
  have hshort : IsShortest (setGraphPath [(1, 1), (1, 2)]) 1 2 [1, 2] :=
    ⟨hpath, fun W hW => hW.two_le (by decide)⟩
  have := hmin 1 (by decide) ⟨[1, 2], hshort, by simp⟩
  exact absurd this (by decide)

/-- C5, amended: on a loaded graph, for `src ≠ dst` with `dst` reachable, the answer
of `Graph::bfs` decodes to a shortest path whose second vertex `b` is a neighbor of
`src` other than `src`, and `b` first occurs in the adjacency list of `src` no later
than any neighbor of `src`, other than `src` itself, that lies on some shortest
path from `src` to `dst`. -/
theorem C5_tie_break_by_insertion_order (edges : List (Int × Int)) (src dst : Int)
    (hne : src ≠ dst) (hr : Reachable (setGraphPath edges) src dst) :
    ∃ r p b, bfs (setGraphPath edges) src dst = some r ∧ decodePath r = some p ∧
      p.get? 1 = some b ∧ IsShortest (setGraphPath edges) src dst p ∧
      b ∈ neighbors (setGraphPath edges) src ∧ b ≠ src ∧
      ∀ a, a ∈ neighbors (setGraphPath edges) src → a ≠ src →
        (∃ W, IsShortest (setGraphPath edges) src dst W ∧ a ∈ W) →
        (neighbors (setGraphPath edges) src).indexOf b ≤
          (neighbors (setGraphPath edges) src).indexOf a :=
  tieBreak_of_reachable (setGraphPath edges) src dst hne hr

/-- The fifth scenario of the specification: edges `1 2, 1 3, 2 4, 3 4`, query `1 4`,
answered `1 2 4`. -/
theorem C5_tie_break_by_insertion_order_witness :
    (1 : Int) ≠ 4 ∧ Reachable (setGraphPath [(1, 2), (1, 3), (2, 4), (3, 4)]) 1 4 ∧
    bfs (setGraphPath [(1, 2), (1, 3), (2, 4), (3, 4)]) 1 4 = some "1 2 4".toList ∧
    neighbors (setGraphPath [(1, 2), (1, 3), (2, 4), (3, 4)]) 1 = [2, 3] ∧
    TieBreak (setGraphPath [(1, 2), (1, 3), (2, 4), (3, 4)]) 1 4 :=
  ⟨by decide,
    ⟨[1, 3, 4], rfl, rfl, by simp only [List.chain'_cons, List.chain'_singleton]; decide⟩,
    by decide, by decide,
    C5_tie_break_by_insertion_order [(1, 2), (1, 3), (2, 4), (3, 4)] 1 4 (by decide)
      ⟨[1, 3, 4], rfl, rfl, by simp only [List.chain'_cons, List.chain'_singleton]; decide⟩⟩
/-! ## Claims on the cache -/

/-- C6: for a loaded graph and any list of queries that parse, handled one after
another from the empty cache, every request is answered, and the response to each
query, cached or computed, is what `Graph::bfs` returns on the two integers parsed
from it; hence equal queries get equal responses. -/
theorem C6_cache_is_transparent (edges : List (Int × Int)) (lines : List Str)
    (hwf : ∀ q ∈ lines, (parseQuery q).isSome = true) :
    ∃ rs c, serve (setGraphPath edges) Cache.empty lines = Except.ok (rs, c) ∧
      rs.length = lines.length ∧
      (∀ i q r, lines.get? i = some q → rs.get? i = some r →
        ∃ v1 v2, parseQuery q = some (v1, v2) ∧ bfs (setGraphPath edges) v1 v2 = some r) ∧
      (∀ i j, lines.get? i = lines.get? j → rs.get? i = rs.get? j) := by
  obtain ⟨rs, c, h1, _, h3⟩ :=
    serve_spec (setGraphPath edges) lines Cache.empty (CacheInv.empty _) hwf
  have hget : ∀ i, (lines.get? i).map (answer (setGraphPath edges)) =
      (rs.get? i).map some := by
    intro i
    have := congrArg (fun l => l.get? i) h3
    simpa using this
  refine ⟨rs, c, h1, ?_, ?_, ?_⟩
  · have := congrArg List.length h3
    simpa using this.symm
  · intro i q r hq hr
    have := hget i
    rw [hq, hr] at this
    simp only [Option.map_some', Option.some.injEq] at this
    unfold answer at this
    cases hp : parseQuery q with
    | none => rw [hp] at this; simp at this
    | some vs =>
      obtain ⟨v1, v2⟩ := vs
      rw [hp] at this
      exact ⟨v1, v2, rfl, this⟩
  · intro i j hij
    have hi := hget i
    have hj := hget j
    rw [hij, hj] at hi
    cases hri : rs.get? i <;> cases hrj : rs.get? j <;> rw [hri, hrj] at hi <;>
      simp at hi ⊢
    exact hi.symm

/-- Graph `1 2, 2 3, 3 4`; the queries `1 4`, `4 1`, `1 4`, the last one a cache hit. -/
theorem C6_cache_is_transparent_witness :
    (∀ q ∈ ["1 4".toList, "4 1".toList, "1 4".toList], (parseQuery q).isSome = true) ∧
    ∃ rs c, serve (setGraphPath [(1, 2), (2, 3), (3, 4)]) Cache.empty
        ["1 4".toList, "4 1".toList, "1 4".toList] = Except.ok (rs, c) ∧
      rs.length = ["1 4".toList, "4 1".toList, "1 4".toList].length ∧
      (∀ i q r, ["1 4".toList, "4 1".toList, "1 4".toList].get? i = some q →
        rs.get? i = some r →
        ∃ v1 v2, parseQuery q = some (v1, v2) ∧
          bfs (setGraphPath [(1, 2), (2, 3), (3, 4)]) v1 v2 = some r) ∧
      (∀ i j, ["1 4".toList, "4 1".toList, "1 4".toList].get? i =
          ["1 4".toList, "4 1".toList, "1 4".toList].get? j → rs.get? i = rs.get? j) :=
  ⟨by decide, C6_cache_is_transparent [(1, 2), (2, 3), (3, 4)]
    ["1 4".toList, "4 1".toList, "1 4".toList] (by decide)⟩

/-- C7: for any list of queries that parse, handled one after another from the empty
cache, `last_requests` has at most 10 entries after every request, that is after
each initial part of the list. -/
theorem C7_cache_size_at_most_ten (edges : List (Int × Int)) (lines : List Str)
    (hwf : ∀ q ∈ lines, (parseQuery q).isSome = true) (n : Nat) :
    ∃ rs c, serve (setGraphPath edges) Cache.empty (lines.take n) = Except.ok (rs, c) ∧
      StdMap.size c.last_requests ≤ 10 := by
  obtain ⟨rs, c, h1, h2, _⟩ :=
    serve_spec (setGraphPath edges) (lines.take n) Cache.empty (CacheInv.empty _)
      (fun q hq => hwf q (List.mem_of_mem_take hq))
  exact ⟨rs, c, h1, h2.cap⟩

/-- Twelve distinct queries on the graph `1 2`: after the first eleven the cache
holds ten entries. -/
theorem C7_cache_size_at_most_ten_witness :
    (∀ q ∈ (List.range 12).map (fun n => message_to_send n 1),
      (parseQuery q).isSome = true) ∧
    ∃ rs c, serve (setGraphPath [(1, 2)]) Cache.empty
        (((List.range 12).map (fun n => message_to_send n 1)).take 11) =
          Except.ok (rs, c) ∧
      StdMap.size c.last_requests ≤ 10 :=
  ⟨by decide, C7_cache_size_at_most_ten [(1, 2)]
    ((List.range 12).map (fun n => message_to_send n 1)) (by decide) 11⟩

/-- C8: for more than 10 pairwise distinct queries that parse, handled one after
another from the empty cache, `last_requests` ends with exactly 10 entries, its keys
are the last 10 queries, and the first query is no longer cached, so that reissuing
it is a miss. -/
theorem C8_cache_keeps_last_ten (edges : List (Int × Int)) (lines : List Str)
    (hwf : ∀ q ∈ lines, (parseQuery q).isSome = true) (hnd : lines.Nodup)
    (hN : 10 < lines.length) :
    ∃ rs c, serve (setGraphPath edges) Cache.empty lines = Except.ok (rs, c) ∧
      StdMap.size c.last_requests = 10 ∧
      (∀ k, k ∈ StdMap.keys c.last_requests ↔ k ∈ lines.drop (lines.length - 10)) ∧
      (∀ q, lines.head? = some q → StdMap.find c.last_requests q = none) := by
  obtain ⟨rs, c, h1, h2, h3⟩ :=
    serve_distinct (setGraphPath edges) lines Cache.empty (CacheInv.empty _) hwf hnd
      (by simp [Cache.empty])
  have ho : c.order_of_last_request = lastTen lines := by
    simpa [Cache.empty] using h3
  refine ⟨rs, c, h1, ?_, ?_, ?_⟩
  · rw [← h2.length_eq, ho, lastTen_length lines hN]
  · intro k
    rw [← h2.perm.mem_iff, ho]
    rfl
  · intro q hq
    cases lines with
    | nil => simp at hq
    | cons a rest =>
      simp at hq
      subst hq
      by_contra hne
      have := (h2.mem_order_iff a).2 hne
      rw [ho] at this
      exact head_not_mem_lastTen a rest hnd hN this

/-- The sixth scenario of the specification: eleven distinct queries. -/
theorem C8_cache_keeps_last_ten_witness :
    (∀ q ∈ (List.range 11).map (fun n => message_to_send n 1),
      (parseQuery q).isSome = true) ∧
    ((List.range 11).map (fun n => message_to_send n 1)).Nodup ∧
    10 < ((List.range 11).map (fun n => message_to_send n 1)).length ∧
    ∃ rs c, serve (setGraphPath [(1, 2)]) Cache.empty
        ((List.range 11).map (fun n => message_to_send n 1)) = Except.ok (rs, c) ∧
      StdMap.size c.last_requests = 10 ∧
      (∀ k, k ∈ StdMap.keys c.last_requests ↔
        k ∈ ((List.range 11).map (fun n => message_to_send n 1)).drop
          (((List.range 11).map (fun n => message_to_send n 1)).length - 10)) ∧
      (∀ q, ((List.range 11).map (fun n => message_to_send n 1)).head? = some q →
        StdMap.find c.last_requests q = none) :=
  ⟨by decide, by decide, by decide,
    C8_cache_keeps_last_ten [(1, 2)] ((List.range 11).map (fun n => message_to_send n 1))
      (by decide) (by decide) (by decide)⟩

/-- C9: in every state reached by handling queries that parse one after another from
the empty cache, each key of `last_requests` occurs exactly once in
`order_of_last_request`, nothing else occurs there, and the queue is as long as the
map is large. -/
theorem C9_queue_lists_keys_once (edges : List (Int × Int)) (lines : List Str)
    (hwf : ∀ q ∈ lines, (parseQuery q).isSome = true) :
    ∃ rs c, serve (setGraphPath edges) Cache.empty lines = Except.ok (rs, c) ∧
      (∀ k, k ∈ StdMap.keys c.last_requests → occurrences k c.order_of_last_request = 1) ∧
      (∀ k, k ∈ c.order_of_last_request → k ∈ StdMap.keys c.last_requests) ∧
      c.order_of_last_request.length = StdMap.size c.last_requests := by
  obtain ⟨rs, c, h1, h2, _⟩ :=
    serve_spec (setGraphPath edges) lines Cache.empty (CacheInv.empty _) hwf
  refine ⟨rs, c, h1, ?_, ?_, h2.length_eq⟩
  · intro k hk
    exact occurrences_eq_one k _ h2.nodup (h2.perm.mem_iff.2 hk)
  · intro k hk
    exact h2.perm.mem_iff.1 hk

/-- Graph `1 2`; the queries `1 2`, `2 1`, `1 2`. -/
theorem C9_queue_lists_keys_once_witness :
    (∀ q ∈ ["1 2".toList, "2 1".toList, "1 2".toList], (parseQuery q).isSome = true) ∧
    ∃ rs c, serve (setGraphPath [(1, 2)]) Cache.empty
        ["1 2".toList, "2 1".toList, "1 2".toList] = Except.ok (rs, c) ∧
      (∀ k, k ∈ StdMap.keys c.last_requests → occurrences k c.order_of_last_request = 1) ∧
      (∀ k, k ∈ c.order_of_last_request → k ∈ StdMap.keys c.last_requests) ∧
      c.order_of_last_request.length = StdMap.size c.last_requests :=
  ⟨by decide, C9_queue_lists_keys_once [(1, 2)]
    ["1 2".toList, "2 1".toList, "1 2".toList] (by decide)⟩

/-- C10 fails on the code: after the locked block has run on the keys
`1 1, 1 1, 2 2, ..., 12 12`, the first key twice, `last_requests` holds 11 entries.
The stale second queue slot of `1 1` makes one eviction erase nothing. -/
theorem C10_repeated_key_exceeds_capacity :
    ∃ c, cacheInserts Cache.empty repeatedKeyInserts = Except.ok c ∧
      StdMap.size c.last_requests = 11 ∧ c.order_of_last_request.length = 11 := by
  refine ⟨_, rfl, ?_, ?_⟩ <;> decide
/-! ## Claims on the handler, the loader and the wire format -/

/-- C11: in every cache state the handler can be in, that is after any list of
requests handled from the empty cache, for every query string that is a key of
`last_requests` the handler returns the stored value and leaves `last_requests` and
`order_of_last_request` exactly as they were. -/
theorem C11_hit_leaves_cache_unchanged (g : Graph) (lines rs : List Str) (c : Cache)
    (line v : Str) (hreach : serve g Cache.empty lines = Except.ok (rs, c))
    (hk : StdMap.find c.last_requests line = some v) :
    shortest_distance g c line = Except.ok (v, c) := by
  have hkeys := serve_keys_parse g lines Cache.empty rs c
    (by simp [Cache.empty, StdMap.keys]) hreach
  have hmem : line ∈ StdMap.keys c.last_requests := by
    rw [← StdMap.find_isSome_iff, hk]
    rfl
  exact shortest_distance_hit g c line v hk (hkeys line hmem)

/-- The graph `1 2, 2 3, 3 4` after the request `1 4`: asked again, `1 4` is answered
from the cache, which stays as it is. -/
theorem C11_hit_leaves_cache_unchanged_witness :
    serve (setGraphPath [(1, 2), (2, 3), (3, 4)]) Cache.empty ["1 4".toList] =
      Except.ok (["1 2 3 4".toList],
        { last_requests := [("1 4".toList, "1 2 3 4".toList)]
          order_of_last_request := ["1 4".toList] }) ∧
    StdMap.find [("1 4".toList, "1 2 3 4".toList)] "1 4".toList = some "1 2 3 4".toList ∧
    shortest_distance (setGraphPath [(1, 2), (2, 3), (3, 4)])
      { last_requests := [("1 4".toList, "1 2 3 4".toList)]
        order_of_last_request := ["1 4".toList] } "1 4".toList =
      Except.ok ("1 2 3 4".toList,
        { last_requests := [("1 4".toList, "1 2 3 4".toList)]
          order_of_last_request := ["1 4".toList] }) :=
  ⟨rfl, by decide,
    C11_hit_leaves_cache_unchanged (setGraphPath [(1, 2), (2, 3), (3, 4)])
      ["1 4".toList] ["1 2 3 4".toList]
      { last_requests := [("1 4".toList, "1 2 3 4".toList)]
        order_of_last_request := ["1 4".toList] }
      "1 4".toList "1 2 3 4".toList rfl (by decide)⟩

/-- C12: for every list of pairs loaded by `setGraphPath` into an empty graph and all
`u`, `v`, the number of occurrences of `v` in `neighbors(u)` equals the number of
occurrences of `u` in `neighbors(v)`; parallel edges and self-loops included. -/
theorem C12_adjacency_symmetric (edges : List (Int × Int)) (u v : Int) :
    (neighbors (setGraphPath edges) u).count v =
      (neighbors (setGraphPath edges) v).count u :=
  count_neighbors_symm_from edges [] (fun _ _ => rfl) u v

/-- Pairs with a parallel edge and a self-loop: `1 2, 2 1, 1 1`. -/
theorem C12_adjacency_symmetric_witness :
    neighbors (setGraphPath [(1, 2), (2, 1), (1, 1)]) 1 = [2, 2, 1, 1] ∧
    neighbors (setGraphPath [(1, 2), (2, 1), (1, 1)]) 2 = [1, 1] ∧
    (neighbors (setGraphPath [(1, 2), (2, 1), (1, 1)]) 1).count 2 =
      (neighbors (setGraphPath [(1, 2), (2, 1), (1, 1)]) 2).count 1 :=
  ⟨by decide, by decide, C12_adjacency_symmetric [(1, 2), (2, 1), (1, 1)] 1 2⟩

/-- C13: for 32-bit signed integers `v1`, `v2`, the message the client builds,
`to_string(v1) + " " + to_string(v2)`, is at most 256 bytes long (at most 23), and
the handler's parsing of it, split at the first space with `stoi` on each part,
yields exactly `(v1, v2)`. -/
theorem C13_request_round_trip (v1 v2 : Int) (h1 : IsInt32 v1) (h2 : IsInt32 v2) :
    (message_to_send v1 v2).length ≤ 256 ∧ (message_to_send v1 v2).length ≤ 23 ∧
      parseQuery (message_to_send v1 v2) = some (v1, v2) := by
  have l1 := to_string_length_le v1 h1
  have l2 := to_string_length_le v2 h2
  have hl : (message_to_send v1 v2).length ≤ 23 := by
    simp only [message_to_send, List.length_append, List.length_cons]
    omega
  exact ⟨by omega, hl, parseQuery_message v1 v2 h1 h2⟩

/-- The two extreme values of `int`. -/
theorem C13_request_round_trip_witness :
    IsInt32 (-2147483648) ∧ IsInt32 2147483647 ∧
    message_to_send (-2147483648) 2147483647 = "-2147483648 2147483647".toList ∧
    (message_to_send (-2147483648) 2147483647).length ≤ 256 ∧
    (message_to_send (-2147483648) 2147483647).length ≤ 23 ∧
    parseQuery (message_to_send (-2147483648) 2147483647) =
      some (-2147483648, 2147483647) :=
  ⟨by decide, by decide, by decide,
    C13_request_round_trip (-2147483648) 2147483647 (by decide) (by decide)⟩

/-- C16: after any sequence of runs of the locked block from the empty cache, keys
repeated or not, no run has called `front()` on an empty queue, every key of
`last_requests` occurs in `order_of_last_request`, and the queue is not empty when
`last_requests.size() >= 10`. -/
theorem C16_eviction_queue_never_empty (kvs : List (Str × Str)) :
    ∃ c, cacheInserts Cache.empty kvs = Except.ok c ∧
      (∀ k, k ∈ StdMap.keys c.last_requests → 1 ≤ occurrences k c.order_of_last_request) ∧
      (StdMap.size c.last_requests ≥ 10 → c.order_of_last_request ≠ []) := by
  obtain ⟨c, h1, h2⟩ := cacheInserts_keys_queued kvs Cache.empty
    (by simp [Cache.empty, StdMap.keys])
  refine ⟨c, h1, ?_, ?_⟩
  · intro k hk
    have hm := h2 k hk
    unfold occurrences
    have : k ∈ c.order_of_last_request.filter (fun x => decide (x = k)) := by
      rw [List.mem_filter]
      exact ⟨hm, by simp⟩
    exact List.length_pos_of_mem this
  · intro hsz
    obtain ⟨x, hx⟩ := StdMap.keys_ne_nil_of_size_pos c.last_requests (by omega)
    exact List.ne_nil_of_mem (h2 x hx)

/-- The inserts with a repeated key: the run completes and the queue is not empty. -/
theorem C16_eviction_queue_never_empty_witness :
    ∃ c, cacheInserts Cache.empty repeatedKeyInserts = Except.ok c ∧
      (∀ k, k ∈ StdMap.keys c.last_requests → 1 ≤ occurrences k c.order_of_last_request) ∧
      (StdMap.size c.last_requests ≥ 10 → c.order_of_last_request ≠ []) :=
  C16_eviction_queue_never_empty repeatedKeyInserts

/-- C17, as stated, fails: the line `99999999999` has no space and begins with a
decimal integer, but that integer does not fit an `int`, so `stoi` throws and the
handler answers nothing. -/
theorem C17_no_space_counterexample :
    ' ' ∉ "99999999999".toList ∧ BeginsWithDecimal "99999999999".toList 99999999999 ∧
    parseQuery "99999999999".toList = none ∧
    shortest_distance (setGraphPath [(1, 2)]) Cache.empty "99999999999".toList =
      Except.error Fault.stoiThrows :=
  ⟨by decide, ⟨"99999999999".toList, [], rfl, by decide, by simp⟩, by decide, rfl⟩

/-- C17, amended: for every query string that contains no space and begins with a
decimal integer `n` in the range of `int`, the handler's parsing yields source =
destination = `n`, `Graph::bfs(n, n)` is the rendering of `n`, and on every cache
kept by the handler the response is that single-vertex path. -/
theorem C17_no_space_query (g : Graph) (c : Cache) (line : Str) (n : Int)
    (hc : CacheInv g c) (hsp : ' ' ∉ line) (hb : BeginsWithDecimal line n)
    (hn : IsInt32 n) :
    parseQuery line = some (n, n) ∧ bfs g n n = some (to_string n) ∧
      ∃ c', shortest_distance g c line = Except.ok (to_string n, c') := by
  obtain ⟨pre, rest, hl, hpre, hrest⟩ := hb
  have hs : stoi line = some n := by
    rw [hl]
    exact stoi_of_readDecimal pre rest n hpre hrest hn
  have hp := parseQuery_no_space line hsp n hs
  refine ⟨hp, bfs_self g n, ?_⟩
  obtain ⟨r, c', h1, h2, _⟩ := shortest_distance_spec hc (q := line) (by simp [hp])
  have : r = to_string n := by
    simp only [answer, hp, bfs_self] at h2
    simpa using h2.symm
  rw [this] at h1
  exact ⟨c', h1⟩

/-- The example of the claim: the line `7`, on the graph `1 2` with the empty cache. -/
theorem C17_no_space_query_witness :
    CacheInv (setGraphPath [(1, 2)]) Cache.empty ∧ ' ' ∉ "7".toList ∧
    BeginsWithDecimal "7".toList 7 ∧ IsInt32 7 ∧
    parseQuery "7".toList = some (7, 7) ∧
    bfs (setGraphPath [(1, 2)]) 7 7 = some (to_string 7) ∧
    ∃ c', shortest_distance (setGraphPath [(1, 2)]) Cache.empty "7".toList =
      Except.ok (to_string 7, c') :=
  ⟨CacheInv.empty _, by decide, ⟨"7".toList, [], rfl, by decide, by simp⟩, by decide,
    C17_no_space_query (setGraphPath [(1, 2)]) Cache.empty "7".toList 7 (CacheInv.empty _)
      (by decide) ⟨"7".toList, [], rfl, by decide, by simp⟩ (by decide)⟩

/-- C15: on a loaded graph, for any `(src, dst)`, `Graph::bfs` terminates. Its main
loop is left within the fuel; no vertex is taken off the queue or left in it twice,
so each vertex was pushed at most once; `src` has no parent; the walk along the
parent map ends from every vertex, so the map has no cycle; and when `dst` was
found, the walk from `dst` rebuilds a path whose first vertex is `src`. -/
theorem C15_bfs_terminates (edges : List (Int × Int)) (src dst : Int) :
    ∃ e, bfsTrace (setGraphPath edges) dst (bfsFuel (setGraphPath edges)) (bfsInit src) [] =
        some e ∧
      (e.popped ++ e.st.q).Nodup ∧
      StdMap.find e.st.vertex_parents src = none ∧
      (∀ v path, ∃ r,
        pathLoop e.st.vertex_parents (StdMap.size e.st.vertex_parents + 1) v path = some r) ∧
      (e.found = true → ∃ p,
        pathLoop e.st.vertex_parents (StdMap.size e.st.vertex_parents + 1) dst
            (to_string dst) = some (renderPath p) ∧
          p.head? = some src ∧ p.getLast? = some dst) ∧
      ∃ r, bfs (setGraphPath edges) src dst = some r ∧ bfsFinish dst e = some r := by
  have hm : (bfsInit src).q.length +
      unvisited (visOf (bfsInit src)) (allNeighbors (setGraphPath edges)) <
        bfsFuel (setGraphPath edges) := by
    have : unvisited (visOf (bfsInit src)) (allNeighbors (setGraphPath edges)) ≤
        (allNeighbors (setGraphPath edges)).length := List.length_filter_le _ _
    simp only [bfsFuel, bfsInit, List.length_singleton] at this ⊢
    omega
  obtain ⟨e, h1, h2, h3, Q, P, hI⟩ :=
    bfsTrace_spec (setGraphPath edges) src dst (bfsFuel (setGraphPath edges)) (bfsInit src)
      (fun v => [v]) [] (Inv.init _ src dst) hm List.nodup_nil (by simp)
  refine ⟨e, h1, h2, hI.s_par, pathLoop_total hI, ?_, ?_⟩
  · intro hf
    have hv := h3 hf
    have hp := pathLoop_spec hI (StdMap.size e.st.vertex_parents + 1) dst [] hv
      (hI.len_le dst hv)
    have hw := (hI.walk dst hv).isPath
    refine ⟨P dst, ?_, hw.1, hw.2.1⟩
    simpa [renderPath] using hp
  · obtain ⟨r, hr, _⟩ := bfs_spec (setGraphPath edges) src dst
    refine ⟨r, hr, ?_⟩
    have := bfsLoop_eq_bfsTrace (setGraphPath edges) dst (bfsFuel (setGraphPath edges))
      (bfsInit src) []
    rw [h1] at this
    rw [← hr]
    exact this.symm

/-- The first scenario of the specification, `1 2, 2 3, 3 4` with the query `1 4`:
the vertices leave the queue in the order `1, 2, 3, 4`, and the parent map sends `4`
to `3`, `3` to `2`, `2` to `1`. -/
theorem C15_bfs_terminates_witness :
    (bfsTrace (setGraphPath [(1, 2), (2, 3), (3, 4)]) 4
        (bfsFuel (setGraphPath [(1, 2), (2, 3), (3, 4)])) (bfsInit 1) []).map
      (fun e => (e.found, e.popped, e.st.q, e.st.vertex_parents)) =
      some (true, [1, 2, 3, 4], [], [(2, 1), (3, 2), (4, 3)]) := by
  decide

end GraphServer
